import Mathlib

/-!
Verification of the edixml EDIFACT codec (src/edixml.py) against its
natural-language specification.

The development is a shallow embedding: Python strings become `List Char`,
byte strings become `List Nat`, the heterogeneous segment lists become the
`Seg` type below, and every fallible operation returns `Except Err _`
mirroring the exception the Python code would raise.  Regex splitting with
a negative look-behind is embedded as a single-pass character scanner with
an explicit previous-character argument, which is the documented portable
reimplementation of the same operation.
-/

set_option maxHeartbeats 1000000
set_option maxRecDepth 8000

namespace Edixml

/-! ## Python string primitives -/

/-- Python str.replace with a one-character pattern: every occurrence of the
character a is replaced by the string r, scanning left to right. -/
def replace1 (a : Char) (r : List Char) : List Char → List Char
  | [] => []
  | c :: cs => if c = a then r ++ replace1 a r cs else c :: replace1 a r cs

/-- Python str.replace with a two-character pattern a b: non-overlapping
occurrences are replaced by r, scanning left to right. -/
def replace2 (a b : Char) (r : List Char) : List Char → List Char
  | c :: d :: cs =>
      if c = a ∧ d = b then r ++ replace2 a b r cs
      else c :: replace2 a b r (d :: cs)
  | s => s

/-- Prepend a character to the first chunk of a split result. -/
def consHead (c : Char) : List (List Char) → List (List Char)
  | [] => [[c]]
  | t :: ts => (c :: t) :: ts

/-- Python re.split on the single character d with a negative look-behind for
the release character rc: the string is cut at every occurrence of d whose
immediately preceding character is not rc.  prev is the character preceding
the current position in the original string (none at the start). -/
def splitSep (d rc : Char) : Option Char → List Char → List (List Char)
  | _, [] => [[]]
  | prev, c :: cs =>
      if c = d ∧ prev ≠ some rc then [] :: splitSep d rc (some c) cs
      else consHead c (splitSep d rc (some c) cs)

/-- Python re.sub replacing the pattern st cr? nl, guarded by a negative
look-behind for rc, with the single character st (edixml pattern_1). -/
def subTermNl (st cr nl rc : Char) : Option Char → List Char → List Char
  | _, [] => []
  | _, [c] => [c]
  | prev, c :: c2 :: rest =>
    if c = st ∧ prev ≠ some rc then
      if c2 = nl then st :: subTermNl st cr nl rc (some nl) rest
      else
        match rest with
        | [] => [c, c2]
        | c3 :: rest2 =>
          if c2 = cr ∧ c3 = nl then st :: subTermNl st cr nl rc (some nl) rest2
          else c :: subTermNl st cr nl rc (some c) (c2 :: c3 :: rest2)
    else c :: subTermNl st cr nl rc (some c) (c2 :: rest)

/-- Python str.join: chunks joined by the separator string. -/
def pyJoin (sep : List Char) : List (List Char) → List Char
  | [] => []
  | [x] => x
  | x :: y :: rest => x ++ sep ++ pyJoin sep (y :: rest)

/-- Python bytes.index / str.index: index of the first occurrence of pat as a
contiguous subsequence of l, none when absent. -/
def findSub {α : Type} [DecidableEq α] : List α → List α → Option Nat
  | l, pat =>
    if pat.isPrefixOf l then some 0
    else match l with
      | [] => none
      | _ :: t => (findSub t pat).map (· + 1)

/-! ## Delimiters and global constants (edixml.py lines 882-890) -/

def COMPONENT_SEPARATOR : Char := ':'
def DATAELEMENT_SEPARATOR : Char := '+'
def DECIMAL_MARK : Char := '.'
def RELEASE_CHAR : Char := '?'
def SPACE : Char := ' '
def SEGMENT_TERMINATOR : Char := '\''
def NEWLINE : Char := '\n'
def CARRIAGE_RETURN : Char := '\r'

/-- The delimiter record: the six special characters plus the two
line-break characters carried by parse_edi/make_edi keyword arguments. -/
structure Delims where
  cs : Char
  ds : Char
  dm : Char
  rc : Char
  st : Char
  nl : Char
  cr : Char
  deriving DecidableEq, Repr

def defaultDelims : Delims :=
  ⟨COMPONENT_SEPARATOR, DATAELEMENT_SEPARATOR, DECIMAL_MARK, RELEASE_CHAR,
   SEGMENT_TERMINATOR, NEWLINE, CARRIAGE_RETURN⟩

/-- The list whose pairwise distinctness both parse_edi and make_edi assert. -/
def Delims.chars (P : Delims) : List Char :=
  [P.cs, P.ds, P.dm, P.rc, P.st, P.nl, P.cr]

/-- The six characters of a UNA segment body, in wire order. -/
def Delims.unaChars (P : Delims) : List Char :=
  [P.cs, P.ds, P.dm, P.rc, SPACE, P.st]

/-! ## Data model -/

/-- Body of a segment: a UNA segment carries the six delimiter characters,
any other segment carries data elements made of components. -/
inductive Body where
  | chars (cs : List Char) : Body
  | elems (es : List (List (List Char))) : Body
  deriving DecidableEq, Repr

abbrev Tag := List Char

abbrev Seg := Tag × Body

def UNA_TAG : Tag := "UNA".toList
def UNB_TAG : Tag := "UNB".toList

/-- Errors, mirroring the Python exceptions raised by the source. -/
inductive Err where
  | typeError
  | valueError
  | keyError
  | indexError
  | assertError
  | syntaxError (i : Nat)
  | unknownSegment
  | multipleUna
  | delimsNotUnique
  | unreadable
  | encodeError
  | decodeError
  deriving DecidableEq, Repr

/-! ## Recognised segment tags (edixml.py lines 929-942) -/

def SEGMENTS : List (List Char) :=
  ["ADR".toList, "AGR".toList, "AJT".toList, "ALC".toList, "ALI".toList, "APP".toList,
   "APR".toList, "ARD".toList, "ARR".toList, "ASI".toList, "ATT".toList, "AUT".toList,
   "BAS".toList, "BGM".toList, "BII".toList, "BUS".toList, "CAV".toList, "CCD".toList,
   "CCI".toList, "CDI".toList, "CDS".toList, "CDV".toList, "CED".toList, "CIN".toList,
   "CLA".toList, "CLI".toList, "CMP".toList, "CNI".toList, "CNT".toList, "COD".toList,
   "COM".toList, "COT".toList, "CPI".toList, "CPS".toList, "CPT".toList, "CST".toList,
   "CTA".toList, "CUX".toList, "DAM".toList, "DFN".toList, "DGS".toList, "DII".toList,
   "DIM".toList, "DLI".toList, "DLM".toList, "DMS".toList, "DOC".toList, "DRD".toList,
   "DSG".toList, "DSI".toList, "DTM".toList, "EDT".toList, "EFI".toList, "ELM".toList,
   "ELU".toList, "ELV".toList, "EMP".toList, "EQA".toList, "EQD".toList, "EQN".toList,
   "ERC".toList, "ERP".toList, "EVE".toList, "FCA".toList, "FII".toList, "FNS".toList,
   "FNT".toList, "FOR".toList, "FSQ".toList, "FTX".toList, "GDS".toList, "GEI".toList,
   "GID".toList, "GIN".toList, "GIR".toList, "GOR".toList, "GPO".toList, "GRU".toList,
   "HAN".toList, "HYN".toList, "ICD".toList, "IDE".toList, "IFD".toList, "IHC".toList,
   "IMD".toList, "IND".toList, "INP".toList, "INV".toList, "IRQ".toList, "LAN".toList,
   "LIN".toList, "LOC".toList, "MEA".toList, "MEM".toList, "MKS".toList, "MOA".toList,
   "MSG".toList, "MTD".toList, "NAD".toList, "NAT".toList, "PAC".toList, "PAI".toList,
   "PAS".toList, "PCC".toList, "PCD".toList, "PCI".toList, "PDI".toList, "PER".toList,
   "PGI".toList, "PIA".toList, "PNA".toList, "POC".toList, "PRC".toList, "PRI".toList,
   "PRV".toList, "PSD".toList, "PTY".toList, "PYT".toList, "QRS".toList, "QTY".toList,
   "QUA".toList, "QVR".toList, "RCS".toList, "REL".toList, "RFF".toList, "RJL".toList,
   "RNG".toList, "ROD".toList, "RSL".toList, "RTE".toList, "SAL".toList, "SCC".toList,
   "SCD".toList, "SEG".toList, "SEL".toList, "SEQ".toList, "SFI".toList, "SGP".toList,
   "SGU".toList, "SPR".toList, "SPS".toList, "STA".toList, "STC".toList, "STG".toList,
   "STS".toList, "TAX".toList, "TCC".toList, "TDT".toList, "TEM".toList, "TMD".toList,
   "TMP".toList, "TOD".toList, "TPL".toList, "TRU".toList, "TSR".toList, "UCD".toList,
   "UCF".toList, "UCI".toList, "UCM".toList, "UCS".toList, "UGH".toList, "UGT".toList,
   "UIB".toList, "UIH".toList, "UIR".toList, "UIT".toList, "UIZ".toList, "UNB".toList,
   "UNE".toList, "UNG".toList, "UNH".toList, "UNO".toList, "UNP".toList, "UNS".toList,
   "UNT".toList, "UNZ".toList, "USA".toList, "USB".toList, "USC".toList, "USD".toList,
   "USE".toList, "USF".toList, "USH".toList, "USL".toList, "USR".toList, "UST".toList,
   "USU".toList, "USX".toList, "USY".toList, "VLI".toList]

/-! ## Encodings (edixml.py lines 893-927)

Only the encodings that the verified claims exercise are modelled concretely:
UNOA and UNOB map to ASCII, UNOC to ISO-8859-1 and UNOY to UTF-8.  The
remaining identifiers (regional ISO-8859 variants, ISO-2022-JP, UTF-16) are
represented by an opaque unmodelled codec whose encode and decode always
fail; no theorem below depends on their behaviour. -/

inductive Enc where
  | ascii
  | latin1
  | utf8
  | unmodelled
  deriving DecidableEq, Repr

def ENCODINGS : List (List Char × Enc) :=
  [("UNOA".toList, .ascii), ("UNOB".toList, .ascii), ("UNOC".toList, .latin1),
   ("UNOD".toList, .unmodelled), ("UNOE".toList, .unmodelled), ("UNOF".toList, .unmodelled),
   ("UNOG".toList, .unmodelled), ("UNOH".toList, .unmodelled), ("UNOI".toList, .unmodelled),
   ("UNOJ".toList, .unmodelled), ("UNOK".toList, .unmodelled), ("UNOL".toList, .unmodelled),
   ("UNOX".toList, .unmodelled), ("UNOY".toList, .utf8), ("UNOW".toList, .unmodelled)]

def encOf (uno : List Char) : Option Enc := List.lookup uno ENCODINGS

/-- UTF-8 encoding of one Unicode scalar value. -/
def utf8EncodeChar (n : Nat) : List Nat :=
  if n < 0x80 then [n]
  else if n < 0x800 then [0xC0 + n / 0x40, 0x80 + n % 0x40]
  else if n < 0x10000 then
    [0xE0 + n / 0x1000, 0x80 + n / 0x40 % 0x40, 0x80 + n % 0x40]
  else
    [0xF0 + n / 0x40000, 0x80 + n / 0x1000 % 0x40, 0x80 + n / 0x40 % 0x40, 0x80 + n % 0x40]

def utf8Encode (s : List Char) : List Nat := s.flatMap (fun c => utf8EncodeChar c.toNat)

/-- Consume one UTF-8 continuation byte, shifting it into the accumulated
scalar value. -/
def utf8Cont (acc : Nat) : List Nat → Option (Nat × List Nat)
  | b :: rest => if 0x80 ≤ b ∧ b < 0xC0 then some (acc * 0x40 + (b - 0x80), rest) else none
  | [] => none

/-- Decode one UTF-8 scalar value from the head of the byte list, rejecting
overlong forms, surrogates and out-of-range leads exactly as Python's utf-8
codec does. -/
def utf8DecodeChar1 : List Nat → Option (Nat × List Nat)
  | [] => none
  | b :: bs =>
    if b < 0x80 then some (b, bs)
    else if b < 0xC2 then none
    else if b < 0xE0 then utf8Cont (b - 0xC0) bs
    else if b < 0xF0 then
      match utf8Cont (b - 0xE0) bs with
      | some (a1, r1) =>
        match utf8Cont a1 r1 with
        | some (n, r2) =>
          if 0x800 ≤ n ∧ (n < 0xD800 ∨ 0xDFFF < n) then some (n, r2) else none
        | none => none
      | none => none
    else if b < 0xF5 then
      match utf8Cont (b - 0xF0) bs with
      | some (a1, r1) =>
        match utf8Cont a1 r1 with
        | some (a2, r2) =>
          match utf8Cont a2 r2 with
          | some (n, r3) =>
            if 0x10000 ≤ n ∧ n < 0x110000 then some (n, r3) else none
          | none => none
        | none => none
      | none => none
    else none

def utf8DecodeLoop : Nat → List Nat → Option (List Char)
  | _, [] => some []
  | 0, _ :: _ => none
  | fuel + 1, b :: bs =>
    match utf8DecodeChar1 (b :: bs) with
    | some (n, rest) => (utf8DecodeLoop fuel rest).map (fun cs => Char.ofNat n :: cs)
    | none => none

/-- Strict UTF-8 decoding of a whole byte string; the fuel argument of the
loop is the byte count, an upper bound on the number of decoded scalars. -/
def utf8Decode (l : List Nat) : Option (List Char) := utf8DecodeLoop l.length l

def encodeWith : Enc → List Char → Option (List Nat)
  | .ascii, s => if s.all (fun c => c.toNat < 128) then some (s.map Char.toNat) else none
  | .latin1, s => if s.all (fun c => c.toNat < 256) then some (s.map Char.toNat) else none
  | .utf8, s => some (utf8Encode s)
  | .unmodelled, _ => none

def decodeWith : Enc → List Nat → Option (List Char)
  | .ascii, b => if b.all (· < 128) then some (b.map Char.ofNat) else none
  | .latin1, b => if b.all (· < 256) then some (b.map Char.ofNat) else none
  | .utf8, b => utf8Decode b
  | .unmodelled, _ => none

/-! ## Wire emitter: make_edi (edixml.py lines 1050-1106) -/

/-- Escaping of one component before emission (edixml.py lines 1085-1087):
first the data-element separator, then the component separator, then the
segment terminator each get the release character prefixed.  The release
character itself is not escaped by the source. -/
def escape_component (P : Delims) (c : List Char) : List Char :=
  replace2Free P.st (replace2Free P.cs (replace2Free P.ds c))
where
  /-- One replace pass: d becomes rc d. -/
  replace2Free (d : Char) (s : List Char) : List Char := replace1 d [P.rc, d] s

/-- The component_separator-joined rendering of one data element. -/
def element_str (P : Delims) (el : List (List Char)) : List Char :=
  pyJoin [P.cs] (el.map (escape_component P))

/-- A non-UNA segment's line without its terminator. -/
def seg_line (P : Delims) (tag : Tag) (es : List (List (List Char))) : List Char :=
  tag ++ [P.ds] ++ pyJoin [P.ds] (es.map (element_str P))

/-- A non-UNA segment's data elements.  The source iterates whatever sits in
the body slot; for a character-list body each character acts as a one-string
data element, matching Python iteration over a string. -/
def body_elems : Body → List (List (List Char))
  | .elems es => es
  | .chars cs => cs.map (fun c => [[c]])

/-- The segment loop of make_edi: i is the running index (the source skips a
UNA segment only at index 0) and the line-break suffix is omitted after the
final segment. -/
def make_edi_body (P : Delims) (wnl wcr : Bool) : Nat → List Seg → Except Err (List Char)
  | _, [] => .ok []
  | i, (tag, b) :: rest =>
    if tag = UNA_TAG then
      if i = 0 then make_edi_body P wnl wcr (i + 1) rest else .error .multipleUna
    else if tag ∈ SEGMENTS then
      match make_edi_body P wnl wcr (i + 1) rest with
      | .error e => .error e
      | .ok r =>
        let brk := if rest = [] then [] else
          (if wcr then [P.cr] else []) ++ (if wnl then [P.nl] else [])
        .ok (seg_line P tag (body_elems b) ++ [P.st] ++ brk ++ r)
    else .error .unknownSegment

/-- The UNB scan of make_edi (edixml.py lines 1098-1103): the syntax
identifier is the first component of the first data element of the first UNB
segment, or the default when no UNB is present. -/
def scan_uno : List Seg → List Char → Except Err (List Char)
  | [], dflt => .ok dflt
  | (tag, b) :: rest, dflt =>
    if tag = UNB_TAG then
      match b with
      | .elems ((c :: _) :: _) => .ok c
      | .elems _ => .error .indexError
      | .chars (c :: _) => .ok [c]
      | .chars [] => .error .indexError
    else scan_uno rest dflt

def make_edi (segments : List Seg) (P : Delims) (default_encoding : List Char)
    (with_newline with_carriage_return with_una : Bool) : Except Err (List Nat) :=
  if P.chars.Nodup then
    let una : List Char :=
      if with_una then
        UNA_TAG ++ P.unaChars ++
          (if with_carriage_return then [P.cr] else []) ++
          (if with_newline then [P.nl] else [])
      else []
    match make_edi_body P with_newline with_carriage_return 0 segments with
    | .error e => .error e
    | .ok bodyTxt =>
      match scan_uno segments default_encoding with
      | .error e => .error e
      | .ok uno =>
        match encOf uno with
        | none => .error .keyError
        | some enc =>
          match encodeWith enc (una ++ bodyTxt) with
          | some bytes => .ok bytes
          | none => .error .encodeError
  else .error .delimsNotUnique

/-! ## Wire parser: parse_edi (edixml.py lines 945-1047) -/

/-- Encoding sniffing (edixml.py lines 959-967).  Python stores False when
UNB is absent and then tests the index for truthiness, so an occurrence of
UNB at byte position 0 falls back to the default identifier exactly like an
absent UNB. -/
def sniff_uno (data : List Nat) (default_encoding : List Char) : Except Err (List Char) :=
  match findSub data (UNB_TAG.map Char.toNat) with
  | some i =>
    if i ≠ 0 then
      match findSub (data.drop i) ("UNO".toList.map Char.toNat) with
      | some j =>
        let quad := (data.drop (i + j)).take 4
        if quad.all (· < 128) then .ok (quad.map Char.ofNat) else .error .decodeError
      | none => .error .valueError
    else .ok default_encoding
  | none => .ok default_encoding

/-- Decoding with fallback (edixml.py lines 971-984): decode with the sniffed
identifier's encoding; on failure try every other identifier in table order
and keep the first that succeeds. -/
def decode_content (data : List Nat) (uno : List Char) : Except Err (List Char) :=
  match encOf uno with
  | none => .error .valueError
  | some enc =>
    match decodeWith enc data with
    | some content => .ok content
    | none =>
      match (ENCODINGS.filter (fun p => p.1 ≠ uno)).findSome? (fun p => decodeWith p.2 data) with
      | some content => .ok content
      | none => .error .unreadable

/-- Delimiter resolution from a leading UNA segment (edixml.py lines 998-999). -/
def resolve_delims (content : List Char) (P : Delims) : Except Err Delims :=
  if UNA_TAG.isPrefixOf content then
    match (content.drop 3).take 6 with
    | [a, b, c, d, _, f] => .ok ⟨a, b, c, d, f, P.nl, P.cr⟩
    | _ => .error .valueError
  else .ok P

/-- Tokenisation into segment lines (edixml.py lines 1020-1021): normalise
terminator-newline groups, split on unescaped terminators, unescape the
terminator inside each line, drop the trailing empty line. -/
def tokenise (P : Delims) (content : List Char) : List (List Char) :=
  ((splitSep P.st P.rc none (subTermNl P.st P.cr P.nl P.rc none content)).map
      (replace2 P.rc P.st [P.st])).dropLast

/-- Parsing of one segment line (edixml.py lines 1026-1045).  A line whose
fourth character is missing hits Python's IndexError before any other check. -/
def parse_line (P : Delims) (i : Nat) (line : List Char) : Except Err Seg :=
  if UNA_TAG.isPrefixOf line then
    if i = 0 then .ok (UNA_TAG, .chars P.unaChars) else .error .multipleUna
  else
    match line.get? 3 with
    | none => .error .indexError
    | some c4 =>
      if c4 = P.ds then
        let tag := line.take 3
        if tag ∈ SEGMENTS then
          let elements := (splitSep P.ds P.rc none (line.drop 4)).map (replace2 P.rc P.ds [P.ds])
          .ok (tag, .elems (elements.map (fun el =>
            (splitSep P.cs P.rc none el).map (replace2 P.rc P.cs [P.cs]))))
        else .error .unknownSegment
      else .error (.syntaxError (i + 1))

def parse_lines (P : Delims) : Nat → List (List Char) → Except Err (List Seg)
  | _, [] => .ok []
  | i, l :: ls =>
    match parse_line P i l with
    | .error e => .error e
    | .ok seg =>
      match parse_lines P (i + 1) ls with
      | .error e => .error e
      | .ok rest => .ok (seg :: rest)

/-- The text-level part of parse_edi, applied to the decoded content.  The
optional warn_invalid_characters pass only prints warnings and never alters
the result, so it is not modelled. -/
def parse_content (content : List Char) (P0 : Delims) : Except Err (List Seg) :=
  match resolve_delims content P0 with
  | .error e => .error e
  | .ok P =>
    if P.chars.Nodup then parse_lines P 0 (tokenise P content)
    else .error .delimsNotUnique

def parse_edi (data : List Nat) (P : Delims) (default_encoding : List Char) :
    Except Err (List Seg) :=
  match sniff_uno data default_encoding with
  | .error e => .error e
  | .ok uno =>
    match decode_content data uno with
    | .error e => .error e
    | .ok content => parse_content content P

def UNOY : List Char := "UNOY".toList

deriving instance DecidableEq for Except

/-! ## XML mapping: make_xml and parse_xml (edixml.py lines 1109-1149)

An ElementTree element is its tag, its attribute dictionary (whose values can
be None), its optional text and its children. -/

inductive XElem where
  | node (tag : List Char) (attrs : List (List Char × Option (List Char)))
      (text : Option (List Char)) (children : List XElem) : XElem

def XElem.tag : XElem → List Char
  | .node t _ _ _ => t

def XElem.attrs : XElem → List (List Char × Option (List Char))
  | .node _ a _ _ => a

def XElem.text : XElem → Option (List Char)
  | .node _ _ t _ => t

def XElem.children : XElem → List XElem
  | .node _ _ _ c => c

/-- Python str(n) for the indices woven into the positional XML tags. -/
def natStr (n : Nat) : List Char := Nat.toDigits 10 n

def make_xml_go : Nat → List Seg → Except Err (List XElem)
  | _, [] => .ok []
  | i, (tag, b) :: rest =>
    if tag = UNA_TAG then
      if i = 0 then
        match b with
        | .chars cs =>
          (make_xml_go (i + 1) rest).map (fun r => XElem.node UNA_TAG [] (some cs) [] :: r)
        | .elems _ => .error .typeError
      else .error .multipleUna
    else
      (make_xml_go (i + 1) rest).map (fun r =>
        XElem.node tag [] none
          ((body_elems b).mapIdx (fun d_i el =>
            XElem.node (tag ++ natStr d_i) [] none
              (el.mapIdx (fun c_i comp =>
                XElem.node (tag ++ natStr d_i ++ natStr c_i) []
                  (if comp ≠ [] then some comp else none) [])))) :: r)

def make_xml (segments : List Seg) (root_tag : List Char) : Except Err XElem :=
  (make_xml_go 0 segments).map (fun ch => XElem.node root_tag [] none ch)

def parse_xml_go : Nat → List XElem → Except Err (List Seg)
  | _, [] => .ok []
  | e_i, e :: rest =>
    if e.tag = UNA_TAG then
      if e_i = 0 then
        match e.text with
        | some t => (parse_xml_go (e_i + 1) rest).map (fun r => (UNA_TAG, Body.chars t) :: r)
        | none => .error .typeError
      else .error .multipleUna
    else
      (parse_xml_go (e_i + 1) rest).map (fun r =>
        (e.tag, Body.elems (e.children.map (fun d =>
          d.children.map (fun c => c.text.getD [])))) :: r)

def parse_xml (root : XElem) : Except Err (List Seg) := parse_xml_go 0 root.children

/-! ## Dictionaries (spec section 3) -/

structure Row where
  pos : List Char
  code : List Char
  name : List Char
  representation : Option (List Char)
  mc : List Char
  rep : Nat
  deriving DecidableEq, Repr

structure SdEntry where
  name : List Char
  description : List Char
  table : List Row
  deriving DecidableEq, Repr

structure EdVal where
  name : List Char
  description : List Char
  deriving DecidableEq, Repr

structure EdEntry where
  name : List Char
  table : Option (List (List Char × EdVal))
  deriving DecidableEq, Repr

abbrev Sd := List (List Char × SdEntry)

abbrev Ed := List (List Char × EdEntry)

/-! ## Annotator: report (edixml.py lines 1157-1232) -/

/-- Python value of int on a digit string. -/
def digitsVal (d : List Char) : Nat := d.foldl (fun a c => a * 10 + (c.toNat - 48)) 0

/-- Python split on the two-character pattern dot-dot. -/
def splitDD : List Char → List (List Char)
  | c :: d :: cs =>
      if c = '.' ∧ d = '.' then [] :: splitDD cs else consHead c (splitDD (d :: cs))
  | s => [s]

def hasDD (s : List Char) : Bool := (findSub s ['.', '.']).isSome

/-- Python re.match of the anchored pattern digits-star, optional dot or
comma, digits-plus.  With backtracking this regex matches at the start of s
exactly when the first character is a digit, or the first character is a dot
or comma followed by a digit: any successful match consumes either a leading
digit (from one of the digit groups) or a leading separator that must be
followed by a digit. -/
def numMatch : List Char → Bool
  | [] => false
  | c :: rest =>
    c.isDigit || ((c = '.' || c = ',') && (match rest with
      | d :: _ => d.isDigit
      | [] => false))

/-- Representation validation (edixml.py lines 1200-1222): split the
representation into class and length, assert their shapes, compare the
component against class and length, and return the ERROR lines. -/
def reprCheck (rp : List Char) (comp : List Char) : Except Err (List (List Char)) := do
  let td : List Char × List Char ←
    if hasDD rp then
      match splitDD rp with
      | [t, d] => pure (t, d)
      | _ => .error Err.valueError
    else
      let d := rp.filter Char.isDigit
      match findSub rp d with
      | none => .error Err.valueError
      | some k => pure (rp.take k, d)
  if td.1 = "a".toList ∨ td.1 = "n".toList ∨ td.1 = "an".toList then
    if td.2 ≠ [] ∧ td.2.all Char.isDigit then
      let classErrs : List (List Char) :=
        (if td.1 = "a".toList ∧ ¬ comp.all Char.isAlpha
          then ["is not alphanumeric.".toList] else []) ++
        (if td.1 = "n".toList ∧ ¬ numMatch comp then ["is not numeric.".toList] else [])
      let lenErrs : List (List Char) :=
        if hasDD rp then
          if ¬ comp.length ≤ digitsVal td.2
            then ["repr: ".toList ++ rp ++ ",  max. len ".toList ++ td.2] else []
        else
          if comp.length ≠ digitsVal td.2
            then ["repr: ".toList ++ rp ++ ", exact len ".toList ++ td.2] else []
      pure ((classErrs ++ lenErrs).map (fun e => "    ERROR:".toList ++ e))
    else .error Err.assertError
  else .error Err.assertError

/-- The missing-mandatory error line (edixml.py line 1230); the source embeds
a leading newline in the appended line itself. -/
def mand_err_line (code : List Char) (tag : Tag) : List Char :=
  '\n' :: ("    Error, component <".toList ++ code ++ "> in segment ".toList ++ tag)

/-- The unknown-code error line (edixml.py line 1191). -/
def unknown_code_line (comp code : List Char) : List Char :=
  "    ERROR: unknown code <".toList ++ comp ++ "> not in (".toList ++ code ++ ")".toList

/-- The inner pairing loop of report (edixml.py lines 1181-1230): the i-th
component of the data element is paired with the i-th row after the start
row; iteration stops when the components are exhausted, or silently when the
rows run out first. -/
def report_pairs (tag : Tag) (ed : Ed) (cdRepr : Option (List Char)) :
    List Row → List (List Char) → Except Err (List (List Char))
  | _, [] => .ok []
  | [], _ :: _ => .ok []
  | r :: rows, comp :: comps => do
    let msg := "    ".toList ++ r.name ++ " <".toList ++ comp ++ "> (".toList ++
      r.code ++ ")".toList
    let pre : List (List Char) × Option (List Char) ←
      if comp = [] then pure ([], none) else
        match List.lookup r.code ed with
        | none => .error Err.keyError
        | some ec =>
          match ec.table with
          | none => pure ([], none)
          | some tbl =>
            match List.lookup comp tbl with
            | none => pure ([unknown_code_line comp r.code], none)
            | some v => pure ([], some v.name)
    let msgLine := match pre.2 with
      | some nm => if nm ≠ [] then msg ++ [' '] ++ nm else msg
      | none => msg
    let reprLines : List (List Char) ←
      if comp = [] then pure [] else
        match r.representation with
        | none => .error Err.typeError
        | some rp => reprCheck rp comp
    let mandLines : List (List Char) :=
      if comp = [] ∧ r.mc = "M".toList ∧ cdRepr ≠ none then [mand_err_line r.code tag]
      else []
    let rest ← report_pairs tag ed cdRepr rows comps
    pure (pre.1 ++ [msgLine] ++ reprLines ++ mandLines ++ rest)

/-- Location of a data element's dictionary row (edixml.py lines 1171-1180):
the first row whose non-empty pos ends with the decimal position; a row with
null representation is a composite header, shifting the component rows by
one and contributing a header line. -/
def report_element (tag : Tag) (ed : Ed) (table : List Row) (i_d : Nat)
    (el : List (List Char)) : Except Err (List (List Char)) :=
  let pos := natStr ((i_d + 1) * 10)
  match table.filter (fun r => r.pos ≠ [] ∧ pos.isSuffixOf r.pos) with
  | [] => .error Err.indexError
  | cd :: _ =>
    let start := table.indexOf cd
    if cd.representation = none then
      (report_pairs tag ed cd.representation (table.drop (start + 1)) el).map
        (fun ls => ("  ".toList ++ cd.name ++ " (".toList ++ cd.code ++ ")".toList) :: ls)
    else
      report_pairs tag ed cd.representation (table.drop start) el

def report_elements (tag : Tag) (ed : Ed) (table : List Row) :
    Nat → List (List (List Char)) → Except Err (List (List Char))
  | _, [] => .ok []
  | i_d, el :: els => do
    let ls ← report_element tag ed table i_d el
    let rest ← report_elements tag ed table (i_d + 1) els
    pure (ls ++ rest)

/-- One segment of the report (edixml.py lines 1159-1231): an unknown non-UNA
tag contributes a single skip line; a known tag is rendered as a
single-segment wire line, an underline, the dictionary name and the
annotated components, followed by an empty line. -/
def report_segment (sd : Sd) (ed : Ed) (s_i : Nat) (seg : Seg) :
    Except Err (List (List Char)) :=
  match List.lookup seg.1 sd with
  | none =>
    if seg.1 ≠ UNA_TAG then
      .ok ["ERROR: skipping undefined segment: <".toList ++ seg.1 ++
        "> at index ".toList ++ natStr s_i]
    else .ok []
  | some entry => do
    let ediBytes ← make_edi [seg] defaultDelims UNOY false false false
    let ediLine ← match utf8Decode ediBytes with
      | some t => pure t
      | none => Except.error Err.decodeError
    let body ← report_elements seg.1 ed entry.table 0 (body_elems seg.2)
    pure ([ediLine, List.replicate ediLine.length '-',
      entry.name ++ " <".toList ++ seg.1 ++ ">".toList] ++ body ++ [[]])

def report_go (sd : Sd) (ed : Ed) : Nat → List Seg → Except Err (List (List Char))
  | _, [] => .ok []
  | i, seg :: rest => do
    let ls ← report_segment sd ed i seg
    let r ← report_go sd ed (i + 1) rest
    pure (ls ++ r)

def reportLines (segments : List Seg) (sd : Sd) (ed : Ed) :
    Except Err (List (List Char)) :=
  report_go sd ed 0 segments

def report (segments : List Seg) (sd : Sd) (ed : Ed) : Except Err (List Char) :=
  (reportLines segments sd ed).map (List.intercalate ['\n'])

/-! ## Attributed XML: make_edi_xml (edixml.py lines 1235-1298) -/

/-- The attribute dictionaries assigned to the first paired component
elements (edixml.py lines 1277-1297).  The code dictionary is consulted for
every paired row, so an absent code raises KeyError; with a table present and
a non-empty component, the value attribute is the table name or the literal
CUSTOM CODE. -/
def edi_xml_attrs (ed : Ed) :
    List Row → List (List Char) → Except Err (List (List (List Char × Option (List Char))))
  | _, [] => .ok []
  | [], _ :: _ => .ok []
  | r :: rows, comp :: comps => do
    let base : List (List Char × Option (List Char)) :=
      [("code".toList, some r.code), ("name".toList, some r.name),
       ("mc".toList, some r.mc), ("representation".toList, r.representation)]
    let withVal : List (List Char × Option (List Char)) ←
      match List.lookup r.code ed with
      | none => .error Err.keyError
      | some ec =>
        match ec.table with
        | some tbl =>
          if comp ≠ [] then
            match List.lookup comp tbl with
            | some v => pure (base ++ [("value".toList, some v.name),
                ("description".toList, some v.description)])
            | none => pure (base ++ [("value".toList, some "CUSTOM CODE".toList)])
          else pure base
        | none => pure base
    let rest ← edi_xml_attrs ed rows comps
    pure (withVal :: rest)

def make_edi_xml_element (tag : Tag) (ed : Ed) (table : List Row) (d_i : Nat)
    (el : List (List Char)) : Except Err XElem := do
  let pos := natStr ((d_i + 1) * 10)
  match table.filter (fun r => r.pos ≠ [] ∧ pos.isSuffixOf r.pos) with
  | [] => .error Err.indexError
  | cd :: _ =>
    let start := table.indexOf cd
    let eAttrs : List (List Char × Option (List Char)) :=
      (if cd.representation = none then
        [("pos".toList, some pos), ("code".toList, some cd.code),
         ("name".toList, some cd.name)]
       else [("pos".toList, some pos)]) ++
      (if cd.rep ≠ 0 then [("repeat".toList, some (natStr cd.rep)),
        ("mc".toList, some cd.mc)] else [])
    let start2 := if cd.representation = none then start + 1 else start
    let attrsList ← edi_xml_attrs ed (table.drop start2) el
    pure (XElem.node (tag ++ natStr d_i) eAttrs none
      (el.mapIdx (fun c_i comp =>
        XElem.node (tag ++ natStr d_i ++ natStr c_i) (attrsList.getD c_i [])
          (if comp ≠ [] then some comp else none) [])))

def make_edi_xml_elements (tag : Tag) (ed : Ed) (table : List Row) :
    Nat → List (List (List Char)) → Except Err (List XElem)
  | _, [] => .ok []
  | d_i, el :: els => do
    let x ← make_edi_xml_element tag ed table d_i el
    let rest ← make_edi_xml_elements tag ed table (d_i + 1) els
    pure (x :: rest)

def make_edi_xml_go (sd : Sd) (ed : Ed) : List Seg → Except Err (List XElem)
  | [] => .ok []
  | (tag, b) :: rest =>
    if tag = UNA_TAG then
      match b with
      | .chars cs =>
        (make_edi_xml_go sd ed rest).map (fun r => XElem.node UNA_TAG [] (some cs) [] :: r)
      | .elems _ => .error .typeError
    else
      match List.lookup tag sd with
      | none => .error Err.keyError
      | some entry => do
        let children ← make_edi_xml_elements tag ed entry.table 0 (body_elems b)
        let rest2 ← make_edi_xml_go sd ed rest
        pure (XElem.node tag [("description".toList, some entry.description),
          ("name".toList, some entry.name)] none children :: rest2)

def make_edi_xml (segments : List Seg) (sd : Sd) (ed : Ed) (root_tag : List Char) :
    Except Err XElem :=
  (make_edi_xml_go sd ed segments).map (fun ch => XElem.node root_tag [] none ch)

/-! ## Statement-level predicates -/

/-- Scanning check that every occurrence of a meta character in s is escaped,
i.e. sits right after an occurrence of the release character acting as an
escape.  An rc followed by a meta character forms an escape pair; any other
occurrence of a meta character (rc itself included when it is listed among
the metas) is unescaped. -/
def all_escaped (metas : List Char) (rc : Char) : List Char → Bool
  | [] => true
  | [x] => !(metas.contains x)
  | x :: y :: rest =>
    if x = rc ∧ metas.contains y = true then all_escaped metas rc rest
    else if metas.contains x then false
    else all_escaped metas rc (y :: rest)

/-- Well-formed delimiter options for the canonical round-trip domain: the
seven characters are pairwise distinct (the source's own assertion) and none
of them is an uppercase letter (so they cannot collide with segment tags) or
the fixed space of the UNA prefix. -/
def GoodDelims (P : Delims) : Prop :=
  P.chars.Nodup ∧ ∀ x ∈ P.chars, ¬ x.isUpper ∧ x ≠ SPACE

/-- A component in the canonical round-trip domain: it does not end with the
release character (the source never escapes the release character, so a
trailing one would shield the following separator) and contains no line-break
characters. -/
def OkComp (P : Delims) (c : List Char) : Prop :=
  c.getLast? ≠ some P.rc ∧ P.nl ∉ c ∧ P.cr ∉ c

instance (P : Delims) (c : List Char) : Decidable (OkComp P c) := by
  unfold OkComp; infer_instance

/-- A body in the canonical round-trip domain: a non-empty list of non-empty
data elements of canonical components (a parse result never contains an
empty element list, and an empty data element emits the same bytes as one
holding a single empty component). -/
def OkBody (P : Delims) : Body → Prop
  | .chars _ => False
  | .elems es => es ≠ [] ∧ ∀ el ∈ es, el ≠ [] ∧ ∀ c ∈ el, OkComp P c

instance (P : Delims) (b : Body) : Decidable (OkBody P b) := by
  cases b <;> simp only [OkBody] <;> infer_instance

/-- A data segment in the canonical round-trip domain: recognised tag, not a
service UNA, not a UNB (so the emitted interchange keeps the default UTF-8
identifier), canonical body. -/
def OkSeg (P : Delims) (s : Seg) : Prop :=
  s.1 ∈ SEGMENTS ∧ s.1 ≠ UNA_TAG ∧ s.1 ≠ UNB_TAG ∧ OkBody P s.2

instance (P : Delims) (s : Seg) : Decidable (OkSeg P s) := by
  unfold OkSeg; infer_instance

def GoodSegs (P : Delims) (T : List Seg) : Prop := ∀ s ∈ T, OkSeg P s

instance (P : Delims) (T : List Seg) : Decidable (GoodSegs P T) := by
  unfold GoodSegs; infer_instance

instance (P : Delims) : Decidable (GoodDelims P) := by
  unfold GoodDelims; infer_instance

/-- The data segments make_edi serialises: a UNA segment at index 0 is
skipped by the emitter. -/
def strip_una : List Seg → List Seg
  | [] => []
  | (tag, b) :: rest => if tag = UNA_TAG then rest else (tag, b) :: rest

/-! ## Proof-layer notions

expandP is the simultaneous-expansion normal form of the sequential escape
replaces; guardedF states that a left-to-right scan with look-behind finds no
split point; lastC is the look-behind context after consuming a string. -/

def expandP (p : Char → Bool) (rc : Char) (s : List Char) : List Char :=
  s.flatMap (fun x => if p x then [rc, x] else [x])

def guardedF (d rc : Char) : Option Char → List Char → Bool
  | _, [] => true
  | prev, x :: t => if x = d ∧ prev ≠ some rc then false else guardedF d rc (some x) t

def lastC (prev : Option Char) (s : List Char) : Option Char :=
  match s.getLast? with
  | some c => some c
  | none => prev

/-- Escape set of make_edi: the three separator characters. -/
def pAll (P : Delims) : Char → Bool := fun x => x == P.ds || x == P.cs || x == P.st

/-- Escape set remaining after the line-level terminator unescape. -/
def pDC (P : Delims) : Char → Bool := fun x => x == P.ds || x == P.cs

/-- Escape set remaining after the data-element unescape. -/
def pC (P : Delims) : Char → Bool := fun x => x == P.cs

/-- The first tokenised line of an emitted interchange with a UNA header:
everything before the terminator that closes the UNA segment. -/
def una_chunk (P : Delims) : List Char := UNA_TAG ++ [P.cs, P.ds, P.dm, P.rc, SPACE]

def lineOf (P : Delims) (s : Seg) : List Char := seg_line P s.1 (body_elems s.2)

def emit_body (P : Delims) (T : List Seg) : List Char :=
  T.flatMap (fun s => lineOf P s ++ [P.st])

def emit_text (P : Delims) (T : List Seg) : List Char :=
  UNA_TAG ++ P.unaChars ++ emit_body P T

/-! # Basic lemmas -/

theorem replace1_append (a : Char) (r s t : List Char) :
    replace1 a r (s ++ t) = replace1 a r s ++ replace1 a r t := by
  induction s with
  | nil => rfl
  | cons x xs ih =>
    simp only [List.cons_append, replace1, ih]
    split <;> simp [ih]

theorem replace1_eq_expand (a rc : Char) (s : List Char) :
    replace1 a [rc, a] s = expandP (fun x => x == a) rc s := by
  induction s with
  | nil => rfl
  | cons x xs ih =>
    simp only [replace1, expandP, List.flatMap_cons, ih]
    by_cases h : x = a <;> simp [h, expandP]

theorem replace1_expandP (p : Char → Bool) (b rc : Char) (s : List Char)
    (hb : p b = false) (hrb : rc ≠ b) :
    replace1 b [rc, b] (expandP p rc s) =
      expandP (fun x => p x || x == b) rc s := by
  induction s with
  | nil => rfl
  | cons x xs ih =>
    simp only [expandP, List.flatMap_cons] at ih ⊢
    rw [replace1_append, ih]
    congr 1
    by_cases hx : p x = true
    · have hxb : x ≠ b := fun he => by rw [he, hb] at hx; exact Bool.false_ne_true hx
      simp [hx, replace1, hrb, hxb]
    · simp only [Bool.not_eq_true] at hx
      by_cases hxb : x = b
      · subst hxb
        simp [hx, replace1]
      · simp [hx, hxb, replace1]

/-- The three sequential escape replaces of make_edi equal one simultaneous
expansion that prefixes the release character to each of the three separator
characters, provided the four characters are pairwise distinct. -/
theorem escape_eq_expand (P : Delims) (c : List Char)
    (h1 : P.rc ≠ P.ds) (h2 : P.rc ≠ P.cs) (h3 : P.rc ≠ P.st)
    (h4 : P.cs ≠ P.ds) (h5 : P.st ≠ P.ds) (h6 : P.st ≠ P.cs) :
    escape_component P c =
      expandP (fun x => x == P.ds || x == P.cs || x == P.st) P.rc c := by
  unfold escape_component escape_component.replace2Free
  rw [replace1_eq_expand P.ds P.rc c]
  rw [replace1_expandP _ P.cs P.rc c (by simp [h4]) h2]
  rw [replace1_expandP _ P.st P.rc c (by simp [h5, h6]) h3]

theorem expandP_false (rc : Char) (s : List Char) :
    expandP (fun _ => false) rc s = s := by
  induction s with
  | nil => rfl
  | cons x xs ih => simp only [expandP, List.flatMap_cons] at ih ⊢; simp [ih]

theorem mem_expandP (p : Char → Bool) (rc : Char) (s : List Char) (x : Char)
    (hx : x ∈ expandP p rc s) : x = rc ∨ x ∈ s := by
  induction s with
  | nil => simp [expandP] at hx
  | cons y ys ih =>
    simp only [expandP, List.flatMap_cons, List.mem_append] at hx
    rcases hx with hx | hx
    · by_cases hp : p y = true
      · simp [hp] at hx
        rcases hx with hx | hx
        · exact Or.inl hx
        · exact Or.inr (by simp [hx])
      · simp only [Bool.not_eq_true] at hp
        simp [hp] at hx
        exact Or.inr (by simp [hx])
    · rcases ih hx with h | h
      · exact Or.inl h
      · exact Or.inr (List.mem_cons_of_mem _ h)

theorem expandP_ne_nil (p : Char → Bool) (rc : Char) (s : List Char) (hs : s ≠ []) :
    expandP p rc s ≠ [] := by
  cases s with
  | nil => exact absurd rfl hs
  | cons x xs =>
    simp only [expandP, List.flatMap_cons]
    by_cases hp : p x = true <;> simp [hp]

theorem getLast?_expandP (p : Char → Bool) (rc : Char) (s : List Char)
    (hrc : p rc = false) (hs : s.getLast? ≠ some rc) :
    (expandP p rc s).getLast? ≠ some rc := by
  induction s with
  | nil => simp [expandP]
  | cons x xs ih =>
    cases xs with
    | nil =>
      simp only [expandP, List.flatMap_cons, List.flatMap_nil, List.append_nil]
      by_cases hp : p x = true
      · have hx : x ≠ rc := fun he => by rw [he, hrc] at hp; exact Bool.false_ne_true hp
        simp [hp, hx]
      · simp only [Bool.not_eq_true] at hp
        simp only [List.getLast?_singleton] at hs
        simp [hp, hs]
    | cons y ys =>
      have hxs2 : (y :: ys).getLast? ≠ some rc := by
        rwa [List.getLast?_cons_cons] at hs
      have hne : expandP p rc (y :: ys) ≠ [] :=
        expandP_ne_nil p rc (y :: ys) (by simp)
      have hmain := ih hxs2
      have hstep : expandP p rc (x :: y :: ys) =
          (if p x = true then [rc, x] else [x]) ++ expandP p rc (y :: ys) := by
        simp [expandP]
      obtain ⟨z, hz⟩ := Option.isSome_iff_exists.mp (List.getLast?_isSome.mpr hne)
      rw [hstep, List.getLast?_append, hz]
      rw [hz] at hmain
      simpa using hmain

theorem parse_lines_append (P : Delims) (i : Nat) (l1 l2 : List (List Char)) :
    parse_lines P i (l1 ++ l2) =
      match parse_lines P i l1 with
      | .error e => .error e
      | .ok s1 =>
        match parse_lines P (i + l1.length) l2 with
        | .error e => .error e
        | .ok s2 => .ok (s1 ++ s2) := by
  induction l1 generalizing i with
  | nil =>
    simp only [List.nil_append, parse_lines, List.length_nil, Nat.add_zero]
    cases parse_lines P i l2 <;> rfl
  | cons l ls ih =>
    simp only [List.cons_append, parse_lines]
    cases parse_line P i l with
    | error e => rfl
    | ok seg =>
      dsimp only []
      have happ : ls.append l2 = ls ++ l2 := rfl
      rw [happ, ih]
      cases parse_lines P (i + 1) ls with
      | error e => rfl
      | ok s1 =>
        simp only [List.length_cons]
        have harith : i + 1 + ls.length = i + (ls.length + 1) := by omega
        rw [harith]
        cases parse_lines P (i + (ls.length + 1)) l2 <;> rfl

theorem replace2_cons_cons_ne (a b x y : Char) (r s : List Char) (h : ¬(x = a ∧ y = b)) :
    replace2 a b r (x :: y :: s) = x :: replace2 a b r (y :: s) := by
  simp [replace2, h]

theorem replace2_cons_cons_eq (a b : Char) (r s : List Char) :
    replace2 a b r (a :: b :: s) = r ++ replace2 a b r s := by
  simp [replace2]

theorem replace2_cons_cons_match (a b x y : Char) (r s : List Char) (h : x = a ∧ y = b) :
    replace2 a b r (x :: y :: s) = r ++ replace2 a b r s := by
  obtain ⟨h1, h2⟩ := h
  rw [h1, h2]
  exact replace2_cons_cons_eq a b r s

theorem replace2_cons_ne (a b x : Char) (r s : List Char) (hx : x ≠ a) :
    replace2 a b r (x :: s) = x :: replace2 a b r s := by
  cases s with
  | nil => rfl
  | cons y t => exact replace2_cons_cons_ne a b x y r t (fun hc => hx hc.1)

theorem replace2_cons_not_b (a b : Char) (r s : List Char) (hs : s.head? ≠ some b) :
    replace2 a b r (a :: s) = a :: replace2 a b r s := by
  cases s with
  | nil => rfl
  | cons y t =>
    have hy : y ≠ b := by simpa using hs
    exact replace2_cons_cons_ne a b a y r t (fun hc => hy hc.2)

theorem replace2_notin (a b : Char) (r : List Char) : ∀ s : List Char, b ∉ s →
    replace2 a b r s = s
  | [], _ => rfl
  | [x], _ => rfl
  | x :: y :: t, h => by
    have hy : y ≠ b := fun he => h (by simp [he])
    have ht : b ∉ y :: t := fun hm => h (List.mem_cons_of_mem _ hm)
    rw [replace2_cons_cons_ne a b x y r t (fun hc => hy hc.2)]
    rw [replace2_notin a b r (y :: t) ht]

theorem replace2_append (a b : Char) (r : List Char) (hab : a ≠ b) :
    ∀ s t : List Char, s.getLast? ≠ some a →
      replace2 a b r (s ++ t) = replace2 a b r s ++ replace2 a b r t
  | [], t, _ => rfl
  | [x], t, h => by
    have hx : x ≠ a := by simpa using h
    show replace2 a b r (x :: t) = replace2 a b r [x] ++ replace2 a b r t
    rw [replace2_cons_ne a b x r t hx]
    rfl
  | x :: y :: s, t, h => by
    have h2 : (y :: s).getLast? ≠ some a := by
      rwa [List.getLast?_cons_cons] at h
    show replace2 a b r (x :: y :: (s ++ t)) =
      replace2 a b r (x :: y :: s) ++ replace2 a b r t
    by_cases hm : x = a ∧ y = b
    · rw [replace2_cons_cons_match a b x y r (s ++ t) hm,
        replace2_cons_cons_match a b x y r s hm]
      cases s with
      | nil =>
        rw [show replace2 a b r ([] : List Char) = [] from rfl]
        simp
      | cons z s2 =>
        have h3 : (z :: s2).getLast? ≠ some a := by
          rwa [List.getLast?_cons_cons] at h2
        rw [show (z :: s2) ++ t = z :: (s2 ++ t) from rfl]
        rw [show z :: (s2 ++ t) = (z :: s2) ++ t from rfl,
          replace2_append a b r hab (z :: s2) t h3]
        simp
    · rw [replace2_cons_cons_ne a b x y r (s ++ t) hm,
        replace2_cons_cons_ne a b x y r s hm]
      rw [show y :: (s ++ t) = (y :: s) ++ t from rfl,
        replace2_append a b r hab (y :: s) t h2]
      rfl

/-- Removing one escape layer: the release-then-d pairs introduced by the
expansion for the set p are contracted back to d, leaving the expansion for
the set p minus d. -/
theorem unescape_expand (p q : Char → Bool) (d rc : Char)
    (hd : p d = true) (hrc : p rc = false) (hdrc : d ≠ rc)
    (hq : ∀ x, q x = (p x && !(x == d))) :
    ∀ s : List Char, replace2 rc d [d] (expandP p rc s) = expandP q rc s
  | [] => rfl
  | x :: s => by
    have hq' := hq x
    have hstep : expandP p rc (x :: s) =
        (if p x = true then [rc, x] else [x]) ++ expandP p rc s := by
      simp [expandP]
    have hstepq : expandP q rc (x :: s) =
        (if q x = true then [rc, x] else [x]) ++ expandP q rc s := by
      simp [expandP]
    have ih := unescape_expand p q d rc hd hrc hdrc hq s
    by_cases hp : p x = true
    · by_cases hxd : x = d
      · have hqx : q x = false := by rw [hq', hxd]; simp
        rw [hstep, hstepq, if_pos hp, hqx]
        simp only [Bool.false_eq_true, if_false, ite_false]
        show replace2 rc d [d] (rc :: x :: expandP p rc s) = x :: expandP q rc s
        rw [replace2_cons_cons_match rc d rc x [d] (expandP p rc s) ⟨rfl, hxd⟩, ih, hxd]
        rfl
      · have hqx : q x = true := by rw [hq']; simp [hp, hxd]
        rw [hstep, hstepq, if_pos hp, if_pos hqx]
        show replace2 rc d [d] (rc :: x :: expandP p rc s) = rc :: x :: expandP q rc s
        have hxrc : x ≠ rc := fun he => by rw [he, hrc] at hp; exact Bool.false_ne_true hp
        have hpair : ¬ (rc = rc ∧ x = d) := fun hc => hxd hc.2
        rw [replace2_cons_cons_ne rc d rc x [d] (expandP p rc s) hpair,
          replace2_cons_ne rc d x [d] (expandP p rc s) hxrc, ih]
    · simp only [Bool.not_eq_true] at hp
      have hqx : q x = false := by rw [hq']; simp [hp]
      have hxd : x ≠ d := fun he => by rw [← he, hp] at hd; exact Bool.false_ne_true hd
      rw [hstep, hstepq, hp, hqx]
      simp only [Bool.false_eq_true, if_false, ite_false, List.singleton_append]
      by_cases hxrc : x = rc
      · have hhead : (expandP p rc s).head? ≠ some d := by
          cases s with
          | nil => simp [expandP]
          | cons y ys =>
            have hstep2 : expandP p rc (y :: ys) =
                (if p y = true then [rc, y] else [y]) ++ expandP p rc ys := by
              simp [expandP]
            rw [hstep2]
            by_cases hpy : p y = true
            · simp only [hpy, if_true, ite_true, List.cons_append, List.head?_cons, ne_eq,
                Option.some.injEq]
              exact Ne.symm hdrc
            · have hyd : y ≠ d := fun he => hpy (by rw [he]; exact hd)
              simp only [hpy, Bool.false_eq_true, if_false, ite_false, List.cons_append,
                List.head?_cons, ne_eq, Option.some.injEq]
              exact hyd
        rw [hxrc, replace2_cons_not_b rc d [d] (expandP p rc s) hhead, ih]
      · rw [replace2_cons_ne rc d x [d] (expandP p rc s) hxrc, ih]

theorem expandP_congr (p p' : Char → Bool) (rc : Char) (h : ∀ x, p x = p' x)
    (s : List Char) : expandP p rc s = expandP p' rc s := by
  have : p = p' := funext h
  rw [this]

theorem contains_eq_mem_decide (metas : List Char) (x : Char) :
    metas.contains x = decide (x ∈ metas) := by
  by_cases h : x ∈ metas
  · simp [h, List.elem_iff.mpr h]
  · simp only [h, decide_False]
    by_cases hc : metas.contains x = true
    · exact absurd (List.elem_iff.mp hc) h
    · simpa using hc

theorem mem_of_contains (metas : List Char) (x : Char) (h : metas.contains x = true) :
    x ∈ metas := by
  rw [contains_eq_mem_decide] at h
  exact of_decide_eq_true h

theorem not_mem_of_contains (metas : List Char) (x : Char) (h : metas.contains x = false) :
    x ∉ metas := by
  rw [contains_eq_mem_decide] at h
  simpa using h

theorem all_escaped_cons_pair (metas : List Char) (rc y : Char) (rest : List Char)
    (hy : y ∈ metas) :
    all_escaped metas rc (rc :: y :: rest) = all_escaped metas rc rest := by
  simp [all_escaped, contains_eq_mem_decide, hy]

theorem all_escaped_cons_safe (metas : List Char) (rc x y : Char) (rest : List Char)
    (hx : x ∉ metas)
    (hcond : ¬ (x = rc ∧ y ∈ metas)) :
    all_escaped metas rc (x :: y :: rest) = all_escaped metas rc (y :: rest) := by
  by_cases hy : y ∈ metas
  · have hxrc : ¬ x = rc := fun hc => hcond ⟨hc, hy⟩
    simp [all_escaped, contains_eq_mem_decide, hx, hy, hxrc]
  · simp [all_escaped, contains_eq_mem_decide, hx, hy]

theorem all_escaped_expandP (metas : List Char) (rc : Char) (p : Char → Bool)
    (hmp : ∀ x, metas.contains x = p x) (hrc : p rc = false) :
    ∀ s, all_escaped metas rc (expandP p rc s) = true
  | [] => rfl
  | x :: s => by
    have ih := all_escaped_expandP metas rc p hmp hrc s
    have hstep : expandP p rc (x :: s) =
        (if p x = true then [rc, x] else [x]) ++ expandP p rc s := by
      simp [expandP]
    by_cases hp : p x = true
    · rw [hstep, if_pos hp]
      show all_escaped metas rc (rc :: x :: expandP p rc s) = true
      rw [all_escaped_cons_pair metas rc x (expandP p rc s)
        (mem_of_contains metas x (by rw [hmp]; exact hp))]
      exact ih
    · simp only [Bool.not_eq_true] at hp
      rw [hstep, hp]
      simp only [Bool.false_eq_true, if_false, ite_false, List.singleton_append]
      have hcx : x ∉ metas := not_mem_of_contains metas x (by rw [hmp]; exact hp)
      cases s with
      | nil =>
        show all_escaped metas rc [x] = true
        simp [all_escaped, contains_eq_mem_decide, hcx]
      | cons z s2 =>
        have hE : ∃ h0 t0, expandP p rc (z :: s2) = h0 :: t0 ∧ h0 ∉ metas := by
          by_cases hpz : p z = true
          · exact ⟨rc, z :: expandP p rc s2, by simp [expandP, hpz],
              not_mem_of_contains metas rc (by rw [hmp]; exact hrc)⟩
          · simp only [Bool.not_eq_true] at hpz
            exact ⟨z, expandP p rc s2, by simp [expandP, hpz],
              not_mem_of_contains metas z (by rw [hmp]; exact hpz)⟩
        obtain ⟨h0, t0, hEe, hch⟩ := hE
        rw [hEe, all_escaped_cons_safe metas rc x h0 t0 hcx
          (fun hc => hch hc.2), ← hEe]
        exact ih

theorem guardedF_cons (d rc x : Char) (prev : Option Char) (t : List Char) :
    guardedF d rc prev (x :: t) =
      if x = d ∧ prev ≠ some rc then false else guardedF d rc (some x) t := rfl

theorem guardedF_of_not_mem (d rc : Char) :
    ∀ (s : List Char), d ∉ s → ∀ prev, guardedF d rc prev s = true
  | [], _, _ => rfl
  | x :: t, h, prev => by
    have hx : x ≠ d := fun he => h (by simp [he])
    have ht : d ∉ t := fun hm => h (List.mem_cons_of_mem _ hm)
    rw [guardedF_cons, if_neg (fun hc => hx hc.1)]
    exact guardedF_of_not_mem d rc t ht (some x)

theorem lastC_append (prev : Option Char) (s t : List Char) :
    lastC prev (s ++ t) = lastC (lastC prev s) t := by
  unfold lastC
  rw [List.getLast?_append]
  cases hgt : t.getLast? with
  | none => simp
  | some c => simp

theorem lastC_cons (prev : Option Char) (x : Char) (s : List Char) :
    lastC prev (x :: s) = lastC (some x) s := by
  have h := lastC_append prev [x] s
  simpa [lastC] using h

theorem lastC_of_ne_nil (prev prev' : Option Char) (s : List Char) (h : s ≠ []) :
    lastC prev s = lastC prev' s := by
  unfold lastC
  cases hg : s.getLast? with
  | none => exact absurd (List.getLast?_eq_none_iff.mp hg) h
  | some c => rfl

theorem guardedF_append (d rc : Char) :
    ∀ (s t : List Char) (prev : Option Char),
      guardedF d rc prev (s ++ t) =
        (guardedF d rc prev s && guardedF d rc (lastC prev s) t)
  | [], t, prev => by simp [guardedF, lastC]
  | x :: s, t, prev => by
    rw [List.cons_append, guardedF_cons, guardedF_cons, lastC_cons]
    by_cases hc : x = d ∧ prev ≠ some rc
    · simp [hc]
    · simp only [hc, if_false, ite_false]
      exact guardedF_append d rc s t (some x)

theorem guardedF_prev_congr (d rc : Char) (s : List Char) (prev1 prev2 : Option Char)
    (h1 : prev1 ≠ some rc) (h2 : prev2 ≠ some rc) :
    guardedF d rc prev1 s = guardedF d rc prev2 s := by
  cases s with
  | nil => rfl
  | cons x t =>
    rw [guardedF_cons, guardedF_cons]
    by_cases hx : x = d
    · rw [if_pos ⟨hx, h1⟩, if_pos ⟨hx, h2⟩]
    · rw [if_neg (fun hc => hx hc.1), if_neg (fun hc => hx hc.1)]

theorem guardedF_expandP (d rc : Char) (p : Char → Bool) (hp : p d = true)
    (hdrc : d ≠ rc) :
    ∀ (s : List Char) (prev : Option Char), guardedF d rc prev (expandP p rc s) = true
  | [], _ => rfl
  | x :: s, prev => by
    have hstep : expandP p rc (x :: s) =
        (if p x = true then [rc, x] else [x]) ++ expandP p rc s := by
      simp [expandP]
    rw [hstep]
    by_cases hpx : p x = true
    · rw [if_pos hpx]
      show guardedF d rc prev (rc :: x :: expandP p rc s) = true
      rw [guardedF_cons, if_neg (fun hc => hdrc hc.1.symm), guardedF_cons,
        if_neg (fun hc => hc.2 rfl)]
      exact guardedF_expandP d rc p hp hdrc s (some x)
    · simp only [Bool.not_eq_true] at hpx
      have hxd : x ≠ d := fun he => by rw [← he, hpx] at hp; exact Bool.false_ne_true hp
      rw [hpx]
      simp only [Bool.false_eq_true, if_false, ite_false, List.singleton_append]
      rw [guardedF_cons, if_neg (fun hc => hxd hc.1)]
      exact guardedF_expandP d rc p hp hdrc s (some x)

theorem splitSep_guardedF (d rc : Char) :
    ∀ (s : List Char) (prev : Option Char), guardedF d rc prev s = true →
      splitSep d rc prev s = [s]
  | [], _, _ => rfl
  | x :: t, prev, h => by
    rw [guardedF_cons] at h
    have hcond : ¬ (x = d ∧ prev ≠ some rc) := by
      intro hc
      rw [if_pos hc] at h
      exact Bool.false_ne_true h
    rw [if_neg hcond] at h
    show splitSep d rc prev (x :: t) = [x :: t]
    rw [show splitSep d rc prev (x :: t) =
      if x = d ∧ prev ≠ some rc then [] :: splitSep d rc (some x) t
      else consHead x (splitSep d rc (some x) t) from rfl]
    rw [if_neg hcond, splitSep_guardedF d rc t (some x) h]
    rfl

theorem splitSep_append_sep (d rc : Char) :
    ∀ (s t : List Char) (prev : Option Char), guardedF d rc prev s = true →
      lastC prev s ≠ some rc →
      splitSep d rc prev (s ++ d :: t) = s :: splitSep d rc (some d) t
  | [], t, prev, _, hlast => by
    have hprev : prev ≠ some rc := by simpa [lastC] using hlast
    show splitSep d rc prev (d :: t) = [] :: splitSep d rc (some d) t
    rw [show splitSep d rc prev (d :: t) =
      if d = d ∧ prev ≠ some rc then [] :: splitSep d rc (some d) t
      else consHead d (splitSep d rc (some d) t) from rfl]
    rw [if_pos ⟨rfl, hprev⟩]
  | x :: s, t, prev, h, hlast => by
    rw [guardedF_cons] at h
    have hcond : ¬ (x = d ∧ prev ≠ some rc) := by
      intro hc
      rw [if_pos hc] at h
      exact Bool.false_ne_true h
    rw [if_neg hcond] at h
    rw [lastC_cons] at hlast
    show splitSep d rc prev (x :: (s ++ d :: t)) = (x :: s) :: splitSep d rc (some d) t
    rw [show splitSep d rc prev (x :: (s ++ d :: t)) =
      if x = d ∧ prev ≠ some rc then [] :: splitSep d rc (some x) (s ++ d :: t)
      else consHead x (splitSep d rc (some x) (s ++ d :: t)) from rfl]
    rw [if_neg hcond, splitSep_append_sep d rc s t (some x) h hlast]
    rfl

theorem pyJoin_cons_ne_nil (sep : List Char) (a : List Char) (L : List (List Char))
    (h : L ≠ []) : pyJoin sep (a :: L) = a ++ sep ++ pyJoin sep L := by
  cases L with
  | nil => exact absurd rfl h
  | cons b L2 => rfl

theorem splitSep_pyJoin (d rc : Char) (hdrc : d ≠ rc) :
    ∀ (chunks : List (List Char)) (prev : Option Char), chunks ≠ [] →
      prev ≠ some rc →
      (∀ c ∈ chunks, guardedF d rc (some d) c = true ∧ lastC (some d) c ≠ some rc) →
      splitSep d rc prev (pyJoin [d] chunks) = chunks
  | [], _, hne, _, _ => absurd rfl hne
  | [c], prev, _, hprev, hc => by
    have hg := (hc c (by simp)).1
    rw [show pyJoin [d] [c] = c from rfl]
    exact splitSep_guardedF d rc c prev
      (by rw [guardedF_prev_congr d rc c prev (some d) hprev
        (fun he => hdrc (by injection he))]; exact hg)
  | c :: c2 :: rest, prev, _, hprev, hc => by
    have hg := (hc c (by simp)).1
    have hlast : lastC prev c ≠ some rc := by
      cases hcn : c with
      | nil => simpa [lastC] using hprev
      | cons z zs =>
        rw [← hcn]
        rw [lastC_of_ne_nil prev (some d) c (by rw [hcn]; simp)]
        exact (hc c (by simp)).2
    rw [pyJoin_cons_ne_nil [d] c (c2 :: rest) (by simp)]
    rw [show c ++ [d] ++ pyJoin [d] (c2 :: rest) = c ++ d :: pyJoin [d] (c2 :: rest) by
      simp]
    rw [splitSep_append_sep d rc c (pyJoin [d] (c2 :: rest)) prev
      (by rw [guardedF_prev_congr d rc c prev (some d) hprev
        (fun he => hdrc (by injection he))]; exact hg) hlast]
    rw [splitSep_pyJoin d rc hdrc (c2 :: rest) (some d) (by simp)
      (fun he => hdrc (by injection he)) (fun x hx => hc x (List.mem_cons_of_mem _ hx))]

theorem mem_pyJoin (sep : List Char) :
    ∀ (chunks : List (List Char)) (x : Char), x ∈ pyJoin sep chunks →
      x ∈ sep ∨ ∃ c ∈ chunks, x ∈ c
  | [], x, hx => by simp [pyJoin] at hx
  | [c], x, hx => Or.inr ⟨c, by simp, hx⟩
  | c :: c2 :: rest, x, hx => by
    rw [pyJoin_cons_ne_nil sep c (c2 :: rest) (by simp)] at hx
    simp only [List.append_assoc, List.mem_append] at hx
    rcases hx with hx | hx | hx
    · exact Or.inr ⟨c, by simp, hx⟩
    · exact Or.inl hx
    · rcases mem_pyJoin sep (c2 :: rest) x hx with h | ⟨c3, hc3, hxc3⟩
      · exact Or.inl h
      · exact Or.inr ⟨c3, List.mem_cons_of_mem _ hc3, hxc3⟩

theorem getLast?_pyJoin (d rc : Char) (hdrc : d ≠ rc) :
    ∀ (chunks : List (List Char)),
      (∀ c ∈ chunks, c.getLast? ≠ some rc) →
      (pyJoin [d] chunks).getLast? ≠ some rc
  | [], _ => by simp [pyJoin]
  | [c], hc => hc c (by simp)
  | c :: c2 :: rest, hc => by
    rw [pyJoin_cons_ne_nil [d] c (c2 :: rest) (by simp)]
    have hrest := getLast?_pyJoin d rc hdrc (c2 :: rest)
      (fun x hx => hc x (List.mem_cons_of_mem _ hx))
    rw [List.append_assoc, List.getLast?_append, List.getLast?_append]
    cases hj : (pyJoin [d] (c2 :: rest)).getLast? with
    | none =>
      simp only [Option.none_or]
      simp only [List.getLast?_singleton, Option.or_some]
      intro he
      exact hdrc (by injection he)
    | some z =>
      rw [hj] at hrest
      simp only [Option.or_some]
      exact hrest

theorem utf8Cont_cons (acc b : Nat) (rest : List Nat) (h : 0x80 ≤ b ∧ b < 0xC0) :
    utf8Cont acc (b :: rest) = some (acc * 0x40 + (b - 0x80), rest) := by
  simp only [utf8Cont]
  rw [if_pos h]

theorem utf8DecodeChar1_encodeChar (c : Char) (rest : List Nat) :
    utf8DecodeChar1 (utf8EncodeChar c.toNat ++ rest) = some (c.toNat, rest) := by
  have hv : Nat.isValidChar c.toNat := c.valid
  have hlt : c.toNat < 0x110000 := by
    rcases hv with h | ⟨_, h⟩
    · omega
    · exact h
  by_cases h1 : c.toNat < 0x80
  · rw [show utf8EncodeChar c.toNat = [c.toNat] from by
      unfold utf8EncodeChar; rw [if_pos h1]]
    show utf8DecodeChar1 (c.toNat :: rest) = some (c.toNat, rest)
    simp only [utf8DecodeChar1]
    rw [if_pos h1]
  · by_cases h2 : c.toNat < 0x800
    · rw [show utf8EncodeChar c.toNat =
        [0xC0 + c.toNat / 0x40, 0x80 + c.toNat % 0x40] from by
          unfold utf8EncodeChar; rw [if_neg h1, if_pos h2]]
      show utf8DecodeChar1 ((0xC0 + c.toNat / 0x40) :: (0x80 + c.toNat % 0x40) :: rest) =
        some (c.toNat, rest)
      simp only [utf8DecodeChar1]
      rw [if_neg (by omega), if_neg (by omega), if_pos (by omega)]
      have hn : (0xC0 + c.toNat / 0x40 - 0xC0) * 0x40 + (0x80 + c.toNat % 0x40 - 0x80) =
          c.toNat := by omega
      rw [utf8Cont_cons _ _ rest (by omega), hn]
    · by_cases h3 : c.toNat < 0x10000
      · have hsur : c.toNat < 0xD800 ∨ 0xDFFF < c.toNat := by
          rcases hv with h | ⟨h, _⟩
          · exact Or.inl h
          · exact Or.inr h
        rw [show utf8EncodeChar c.toNat =
          [0xE0 + c.toNat / 0x1000, 0x80 + c.toNat / 0x40 % 0x40, 0x80 + c.toNat % 0x40]
          from by unfold utf8EncodeChar; rw [if_neg h1, if_neg h2, if_pos h3]]
        show utf8DecodeChar1 ((0xE0 + c.toNat / 0x1000) ::
          (0x80 + c.toNat / 0x40 % 0x40) :: (0x80 + c.toNat % 0x40) :: rest) =
          some (c.toNat, rest)
        simp only [utf8DecodeChar1]
        rw [if_neg (by omega), if_neg (by omega), if_neg (by omega), if_pos (by omega)]
        rw [utf8Cont_cons _ _ _ (by omega)]
        dsimp only []
        rw [utf8Cont_cons _ _ rest (by omega)]
        dsimp only []
        have hn : ((0xE0 + c.toNat / 0x1000 - 0xE0) * 0x40 +
            (0x80 + c.toNat / 0x40 % 0x40 - 0x80)) * 0x40 +
            (0x80 + c.toNat % 0x40 - 0x80) = c.toNat := by omega
        rw [hn, if_pos ⟨by omega, hsur⟩]
      · rw [show utf8EncodeChar c.toNat =
          [0xF0 + c.toNat / 0x40000, 0x80 + c.toNat / 0x1000 % 0x40,
           0x80 + c.toNat / 0x40 % 0x40, 0x80 + c.toNat % 0x40]
          from by unfold utf8EncodeChar; rw [if_neg h1, if_neg h2, if_neg h3]]
        show utf8DecodeChar1 ((0xF0 + c.toNat / 0x40000) ::
          (0x80 + c.toNat / 0x1000 % 0x40) :: (0x80 + c.toNat / 0x40 % 0x40) ::
          (0x80 + c.toNat % 0x40) :: rest) = some (c.toNat, rest)
        simp only [utf8DecodeChar1]
        rw [if_neg (by omega), if_neg (by omega), if_neg (by omega), if_neg (by omega),
          if_pos (by omega)]
        rw [utf8Cont_cons _ _ _ (by omega)]
        dsimp only []
        rw [utf8Cont_cons _ _ _ (by omega)]
        dsimp only []
        rw [utf8Cont_cons _ _ rest (by omega)]
        dsimp only []
        have hn : (((0xF0 + c.toNat / 0x40000 - 0xF0) * 0x40 +
            (0x80 + c.toNat / 0x1000 % 0x40 - 0x80)) * 0x40 +
            (0x80 + c.toNat / 0x40 % 0x40 - 0x80)) * 0x40 +
            (0x80 + c.toNat % 0x40 - 0x80) = c.toNat := by omega
        rw [hn, if_pos ⟨by omega, hlt⟩]

theorem utf8EncodeChar_ne_nil (n : Nat) : utf8EncodeChar n ≠ [] := by
  unfold utf8EncodeChar
  split
  · simp
  · split
    · simp
    · split <;> simp

theorem utf8DecodeLoop_encode : ∀ (s : List Char) (fuel : Nat),
    (utf8Encode s).length ≤ fuel → utf8DecodeLoop fuel (utf8Encode s) = some s
  | [], fuel, _ => by
    cases fuel <;> rfl
  | c :: s, fuel, hf => by
    have henc : utf8Encode (c :: s) = utf8EncodeChar c.toNat ++ utf8Encode s := by
      simp [utf8Encode]
    obtain ⟨b, bs, hbs⟩ : ∃ b bs, utf8EncodeChar c.toNat = b :: bs := by
      cases he : utf8EncodeChar c.toNat with
      | nil => exact absurd he (utf8EncodeChar_ne_nil c.toNat)
      | cons b bs => exact ⟨b, bs, rfl⟩
    cases fuel with
    | zero =>
      exfalso
      rw [henc, hbs] at hf
      simp at hf
    | succ f =>
      rw [henc, hbs]
      show utf8DecodeLoop (f + 1) (b :: (bs ++ utf8Encode s)) = some (c :: s)
      rw [show utf8DecodeLoop (f + 1) (b :: (bs ++ utf8Encode s)) =
        (match utf8DecodeChar1 (b :: (bs ++ utf8Encode s)) with
         | some (n, rest) => (utf8DecodeLoop f rest).map (fun cs => Char.ofNat n :: cs)
         | none => none) from rfl]
      have hkey := utf8DecodeChar1_encodeChar c (utf8Encode s)
      rw [hbs] at hkey
      rw [show (b :: bs) ++ utf8Encode s = b :: (bs ++ utf8Encode s) from rfl] at hkey
      rw [hkey]
      dsimp only []
      have hfs : (utf8Encode s).length ≤ f := by
        rw [henc, hbs] at hf
        simp only [List.cons_append, List.length_cons, List.length_append] at hf
        omega
      rw [utf8DecodeLoop_encode s f hfs]
      simp [Char.ofNat_toNat]

theorem utf8Decode_utf8Encode (s : List Char) : utf8Decode (utf8Encode s) = some s :=
  utf8DecodeLoop_encode s (utf8Encode s).length (Nat.le_refl _)

theorem delims_ne (P : Delims) (hnd : P.chars.Nodup) :
    (P.cs ≠ P.ds ∧ P.cs ≠ P.dm ∧ P.cs ≠ P.rc ∧ P.cs ≠ P.st ∧ P.cs ≠ P.nl ∧ P.cs ≠ P.cr) ∧
    (P.ds ≠ P.dm ∧ P.ds ≠ P.rc ∧ P.ds ≠ P.st ∧ P.ds ≠ P.nl ∧ P.ds ≠ P.cr) ∧
    (P.dm ≠ P.rc ∧ P.dm ≠ P.st ∧ P.dm ≠ P.nl ∧ P.dm ≠ P.cr) ∧
    (P.rc ≠ P.st ∧ P.rc ≠ P.nl ∧ P.rc ≠ P.cr) ∧
    (P.st ≠ P.nl ∧ P.st ≠ P.cr) ∧ P.nl ≠ P.cr := by
  refine ⟨⟨?_, ?_, ?_, ?_, ?_, ?_⟩, ⟨?_, ?_, ?_, ?_, ?_⟩, ⟨?_, ?_, ?_, ?_⟩,
    ⟨?_, ?_, ?_⟩, ⟨?_, ?_⟩, ?_⟩ <;>
  · intro h
    unfold Delims.chars at hnd
    simp [h, List.nodup_cons] at hnd

theorem segments_upper : ∀ t ∈ SEGMENTS, ∀ c ∈ t, c.isUpper = true := by decide

theorem segments_len3 : ∀ t ∈ SEGMENTS, t.length = 3 := by decide

theorem una_tag_upper : ∀ c ∈ UNA_TAG, c.isUpper = true := by decide

theorem mem_replace1 (a : Char) (r : List Char) :
    ∀ (s : List Char) (x : Char), x ∈ replace1 a r s → x ∈ r ∨ x ∈ s
  | [], x, hx => by simp [replace1] at hx
  | c :: cs, x, hx => by
    simp only [replace1] at hx
    by_cases hc : c = a
    · rw [if_pos hc, List.mem_append] at hx
      rcases hx with hx | hx
      · exact Or.inl hx
      · rcases mem_replace1 a r cs x hx with h | h
        · exact Or.inl h
        · exact Or.inr (List.mem_cons_of_mem _ h)
    · rw [if_neg hc, List.mem_cons] at hx
      rcases hx with hx | hx
      · exact Or.inr (by simp [hx])
      · rcases mem_replace1 a r cs x hx with h | h
        · exact Or.inl h
        · exact Or.inr (List.mem_cons_of_mem _ h)

theorem mem_escape_component (P : Delims) (c : List Char) (x : Char)
    (hx : x ∈ escape_component P c) :
    x = P.rc ∨ x = P.ds ∨ x = P.cs ∨ x = P.st ∨ x ∈ c := by
  unfold escape_component escape_component.replace2Free at hx
  rcases mem_replace1 P.st [P.rc, P.st] _ x hx with h | h
  · simp only [List.mem_cons, List.mem_singleton, List.not_mem_nil, or_false] at h
    rcases h with h | h
    · exact Or.inl h
    · exact Or.inr (Or.inr (Or.inr (Or.inl h)))
  rcases mem_replace1 P.cs [P.rc, P.cs] _ x h with h2 | h2
  · simp only [List.mem_cons, List.mem_singleton, List.not_mem_nil, or_false] at h2
    rcases h2 with h2 | h2
    · exact Or.inl h2
    · exact Or.inr (Or.inr (Or.inl h2))
  rcases mem_replace1 P.ds [P.rc, P.ds] _ x h2 with h3 | h3
  · simp only [List.mem_cons, List.mem_singleton, List.not_mem_nil, or_false] at h3
    rcases h3 with h3 | h3
    · exact Or.inl h3
    · exact Or.inr (Or.inl h3)
  · exact Or.inr (Or.inr (Or.inr (Or.inr h3)))

theorem make_edi_body_ok (P : Delims) :
    ∀ (T : List Seg) (i : Nat), (∀ s ∈ T, s.1 ∈ SEGMENTS ∧ s.1 ≠ UNA_TAG) →
      make_edi_body P false false i T = .ok (emit_body P T)
  | [], _, _ => rfl
  | (tag, b) :: rest, i, hT => by
    have h1 := (hT (tag, b) (by simp)).1
    have h2 := (hT (tag, b) (by simp)).2
    simp only [make_edi_body]
    rw [if_neg h2, if_pos h1,
      make_edi_body_ok P rest (i + 1) (fun s hs => hT s (List.mem_cons_of_mem _ hs))]
    dsimp only []
    have hbrk : (if rest = [] then ([] : List Char) else
        (if false then [P.cr] else []) ++ (if false then [P.nl] else [])) = [] := by
      split <;> rfl
    rw [hbrk]
    show Except.ok (seg_line P tag (body_elems b) ++ [P.st] ++ [] ++ emit_body P rest) =
      Except.ok (emit_body P ((tag, b) :: rest))
    simp [emit_body, lineOf]

theorem scan_uno_default (dflt : List Char) :
    ∀ T : List Seg, (∀ s ∈ T, s.1 ≠ UNB_TAG) → scan_uno T dflt = .ok dflt
  | [], _ => rfl
  | (tag, b) :: rest, h => by
    simp only [scan_uno]
    rw [if_neg (h (tag, b) (by simp))]
    exact scan_uno_default dflt rest (fun s hs => h s (List.mem_cons_of_mem _ hs))

theorem make_edi_ok (P : Delims) (S : List Seg) (hnd : P.chars.Nodup)
    (hT : ∀ s ∈ strip_una S, s.1 ∈ SEGMENTS ∧ s.1 ≠ UNA_TAG)
    (hUNB : ∀ s ∈ S, s.1 ≠ UNB_TAG) :
    make_edi S P UNOY false false true =
      .ok (utf8Encode (emit_text P (strip_una S))) := by
  unfold make_edi
  rw [if_pos hnd]
  have hbody : make_edi_body P false false 0 S = .ok (emit_body P (strip_una S)) := by
    cases S with
    | nil => rfl
    | cons s rest =>
      obtain ⟨tag, b⟩ := s
      by_cases htag : tag = UNA_TAG
      · simp only [make_edi_body]
        rw [if_pos htag]
        simp only [if_true, ite_true]
        have hstrip : strip_una ((tag, b) :: rest) = rest := by
          simp [strip_una, htag]
        rw [hstrip] at hT ⊢
        exact make_edi_body_ok P rest 1 hT
      · have hstrip : strip_una ((tag, b) :: rest) = (tag, b) :: rest := by
          simp [strip_una, htag]
        rw [hstrip] at hT ⊢
        exact make_edi_body_ok P ((tag, b) :: rest) 0 hT
  rw [hbody, scan_uno_default UNOY S hUNB]
  dsimp only []
  rw [show encOf UNOY = some Enc.utf8 from by decide]
  dsimp only [encodeWith]
  show Except.ok (utf8Encode (UNA_TAG ++ P.unaChars ++ [] ++ [] ++
    emit_body P (strip_una S))) = _
  rw [show UNA_TAG ++ P.unaChars ++ [] ++ [] ++ emit_body P (strip_una S) =
    emit_text P (strip_una S) from by simp [emit_text]]

theorem subTermNl_cons2 (st cr nl rc c c2 : Char) (rest : List Char) (prev : Option Char) :
    subTermNl st cr nl rc prev (c :: c2 :: rest) =
      if c = st ∧ prev ≠ some rc then
        (if c2 = nl then st :: subTermNl st cr nl rc (some nl) rest
         else match rest with
           | [] => [c, c2]
           | c3 :: rest2 =>
             if c2 = cr ∧ c3 = nl then st :: subTermNl st cr nl rc (some nl) rest2
             else c :: subTermNl st cr nl rc (some c) (c2 :: c3 :: rest2))
      else c :: subTermNl st cr nl rc (some c) (c2 :: rest) := by
  rw [subTermNl.eq_def]

theorem subTermNl_noop (st cr nl rc : Char) :
    ∀ (s : List Char) (prev : Option Char), nl ∉ s → subTermNl st cr nl rc prev s = s
  | [], _, _ => rfl
  | [c], _, _ => rfl
  | c :: c2 :: rest, prev, h => by
    have h2 : c2 ≠ nl := fun he => h (by simp [he])
    have hr : nl ∉ c2 :: rest := fun hm => h (List.mem_cons_of_mem _ hm)
    rw [subTermNl_cons2]
    by_cases hc : c = st ∧ prev ≠ some rc
    · rw [if_pos hc, if_neg h2]
      cases rest with
      | nil => rfl
      | cons c3 rest2 =>
        have h3 : c3 ≠ nl := fun he => h (by simp [he])
        dsimp only []
        rw [if_neg (fun hcc => h3 hcc.2)]
        rw [subTermNl_noop st cr nl rc (c2 :: c3 :: rest2) (some c) hr]
    · rw [if_neg hc]
      rw [subTermNl_noop st cr nl rc (c2 :: rest) (some c) hr]

theorem pAll_rc_false (P : Delims) (h1 : P.rc ≠ P.ds) (h2 : P.rc ≠ P.cs)
    (h3 : P.rc ≠ P.st) : pAll P P.rc = false := by
  unfold pAll
  rw [beq_eq_false_iff_ne.mpr h1, beq_eq_false_iff_ne.mpr h2, beq_eq_false_iff_ne.mpr h3]
  rfl

theorem pDC_rc_false (P : Delims) (h1 : P.rc ≠ P.ds) (h2 : P.rc ≠ P.cs) :
    pDC P P.rc = false := by
  unfold pDC
  rw [beq_eq_false_iff_ne.mpr h1, beq_eq_false_iff_ne.mpr h2]
  rfl

theorem pC_rc_false (P : Delims) (h2 : P.rc ≠ P.cs) : pC P P.rc = false := by
  unfold pC
  rw [beq_eq_false_iff_ne.mpr h2]

theorem pDC_of_pAll (P : Delims) (hds : P.ds ≠ P.st) (hcs : P.cs ≠ P.st) :
    ∀ x, pDC P x = (pAll P x && !(x == P.st)) := by
  intro x
  unfold pAll pDC
  by_cases h3 : x = P.st
  · rw [beq_eq_false_iff_ne.mpr (h3 ▸ Ne.symm hds), beq_eq_false_iff_ne.mpr
      (h3 ▸ Ne.symm hcs), beq_iff_eq.mpr h3]
    rfl
  · rw [beq_eq_false_iff_ne.mpr h3]
    rcases Bool.eq_false_or_eq_true (x == P.ds) with h | h <;>
      rcases Bool.eq_false_or_eq_true (x == P.cs) with h2 | h2 <;> rw [h, h2] <;> rfl

theorem pC_of_pDC (P : Delims) (hcd : P.cs ≠ P.ds) :
    ∀ x, pC P x = (pDC P x && !(x == P.ds)) := by
  intro x
  unfold pDC pC
  by_cases h3 : x = P.ds
  · rw [beq_eq_false_iff_ne.mpr (h3 ▸ Ne.symm hcd), beq_iff_eq.mpr h3]
    rfl
  · rw [beq_eq_false_iff_ne.mpr h3]
    rcases Bool.eq_false_or_eq_true (x == P.cs) with h | h <;> rw [h] <;> rfl

theorem false_of_pC (P : Delims) : ∀ x, (fun _ => false : Char → Bool) x =
    (pC P x && !(x == P.cs)) := by
  intro x
  unfold pC
  by_cases h3 : x = P.cs
  · rw [beq_iff_eq.mpr h3]
    rfl
  · rw [beq_eq_false_iff_ne.mpr h3]
    rfl

theorem isPrefixOf_append_self (l r : List Char) : l.isPrefixOf (l ++ r) = true := by
  induction l with
  | nil => simp [List.isPrefixOf]
  | cons x xs ih =>
    show (x == x && xs.isPrefixOf (xs ++ r)) = true
    rw [beq_self_eq_true, ih]
    rfl

theorem una_prefix_false (t : List Char) (ht : t.length = 3) (hne : t ≠ UNA_TAG)
    (r : List Char) : UNA_TAG.isPrefixOf (t ++ r) = false := by
  obtain ⟨a, b, c, rfl⟩ := List.length_eq_three.mp ht
  show (['U', 'N', 'A'] : List Char).isPrefixOf (a :: b :: c :: r) = false
  simp only [List.isPrefixOf]
  by_cases h1 : a = 'U'
  · by_cases h2 : b = 'N'
    · by_cases h3 : c = 'A'
      · exact absurd (by rw [h1, h2, h3]; rfl) hne
      · rw [beq_eq_false_iff_ne.mpr (fun he => h3 he.symm)]
        simp
    · rw [beq_eq_false_iff_ne.mpr (fun he => h2 he.symm)]
      simp
  · rw [beq_eq_false_iff_ne.mpr (fun he => h1 he.symm)]
    simp

theorem guardedF_pyJoin (d rc sep : Char) (hsep : sep ≠ d) :
    ∀ (chunks : List (List Char)) (prev : Option Char),
      (∀ c ∈ chunks, ∀ prev2, guardedF d rc prev2 c = true) →
      guardedF d rc prev (pyJoin [sep] chunks) = true
  | [], _, _ => rfl
  | [c], prev, h => h c (by simp) prev
  | c :: c2 :: rest, prev, h => by
    rw [pyJoin_cons_ne_nil [sep] c (c2 :: rest) (by simp), List.append_assoc,
      guardedF_append, guardedF_append]
    rw [h c (by simp) prev]
    rw [show guardedF d rc (lastC prev c) [sep] = true from by
      rw [guardedF_cons, if_neg (fun hc => hsep hc.1)]; rfl]
    rw [guardedF_pyJoin d rc sep hsep (c2 :: rest) _
      (fun x hx => h x (List.mem_cons_of_mem _ hx))]
    rfl

theorem replace2_pyJoin (a b sep : Char) (r : List Char) (hab : a ≠ b) (hsa : sep ≠ a) :
    ∀ chunks : List (List Char), (∀ c ∈ chunks, c.getLast? ≠ some a) →
      replace2 a b r (pyJoin [sep] chunks) = pyJoin [sep] (chunks.map (replace2 a b r))
  | [], _ => rfl
  | [c], _ => rfl
  | c :: c2 :: rest, h => by
    rw [pyJoin_cons_ne_nil [sep] c (c2 :: rest) (by simp), List.append_assoc,
      replace2_append a b r hab c ([sep] ++ pyJoin [sep] (c2 :: rest)) (h c (by simp)),
      show ([sep] ++ pyJoin [sep] (c2 :: rest) : List Char) =
        sep :: pyJoin [sep] (c2 :: rest) from rfl,
      replace2_cons_ne a b sep r _ hsa,
      replace2_pyJoin a b sep r hab hsa (c2 :: rest)
        (fun x hx => h x (List.mem_cons_of_mem _ hx))]
    rw [show (c :: c2 :: rest).map (replace2 a b r) =
      replace2 a b r c :: (c2 :: rest).map (replace2 a b r) from rfl]
    rw [pyJoin_cons_ne_nil [sep] (replace2 a b r c)
      ((c2 :: rest).map (replace2 a b r)) (by simp)]
    simp

theorem pAll_st_true (P : Delims) : pAll P P.st = true := by
  unfold pAll
  rw [beq_self_eq_true P.st]
  simp

theorem pDC_ds_true (P : Delims) : pDC P P.ds = true := by
  unfold pDC
  rw [beq_self_eq_true P.ds]
  rfl

theorem pC_cs_true (P : Delims) : pC P P.cs = true := by
  unfold pC
  rw [beq_self_eq_true P.cs]

theorem mem_of_getLast_eq : ∀ (s : List Char) (x : Char), s.getLast? = some x → x ∈ s
  | [], x, h => by simp at h
  | [y], x, h => by
    simp only [List.getLast?_singleton, Option.some.injEq] at h
    simp [h]
  | y :: z :: t, x, h => by
    rw [List.getLast?_cons_cons] at h
    exact List.mem_cons_of_mem _ (mem_of_getLast_eq (z :: t) x h)

theorem getLast?_ne_of_not_mem (s : List Char) (x : Char) (hx : x ∉ s) :
    s.getLast? ≠ some x := fun he => hx (mem_of_getLast_eq s x he)

theorem not_mem_of_not_upper (t : List Char) (ht : ∀ c ∈ t, c.isUpper = true)
    (x : Char) (hx : ¬ x.isUpper = true) : x ∉ t := fun hm => hx (ht x hm)

theorem lastC_ne (prev : Option Char) (s : List Char) (rc : Char)
    (hprev : prev ≠ some rc) (hlast : s.getLast? ≠ some rc) : lastC prev s ≠ some rc := by
  unfold lastC
  cases hg : s.getLast? with
  | none => exact hprev
  | some z => rw [hg] at hlast; exact hlast

theorem map_congr_mem {α β : Type} (f g : α → β) :
    ∀ l : List α, (∀ a ∈ l, f a = g a) → l.map f = l.map g
  | [], _ => rfl
  | a :: l, h => by
    rw [List.map_cons, List.map_cons, h a (by simp),
      map_congr_mem f g l (fun x hx => h x (List.mem_cons_of_mem _ hx))]

/-- The escaped component chunk of one data element, after unescaping the
segment terminator: the remaining escape set is the two inner separators. -/
theorem chunk_st_unesc (P : Delims) (hd : GoodDelims P) (el : List (List Char))
    (hel : ∀ c ∈ el, OkComp P c) :
    replace2 P.rc P.st [P.st] (pyJoin [P.cs] (el.map (expandP (pAll P) P.rc))) =
      pyJoin [P.cs] (el.map (expandP (pDC P) P.rc)) := by
  obtain ⟨⟨hcd, hcm, hcr, hcs, hcn, hcc⟩, ⟨hdm, hdr, hds, hdn, hdc⟩,
    ⟨hmr, hms, hmn, hmc⟩, ⟨hrs, hrn, hrc2⟩, ⟨hsn, hsc⟩, hnc⟩ := delims_ne P hd.1
  rw [replace2_pyJoin P.rc P.st P.cs [P.st] hrs hcr (el.map (expandP (pAll P) P.rc))
    (by
      intro c hc
      obtain ⟨c0, hc0, rfl⟩ := List.mem_map.mp hc
      exact getLast?_expandP (pAll P) P.rc c0
        (pAll_rc_false P (Ne.symm hdr) (Ne.symm hcr) hrs) (hel c0 hc0).1)]
  rw [List.map_map]
  exact congrArg (pyJoin [P.cs]) (map_congr_mem _ _ el (fun c _ =>
    unescape_expand (pAll P) (pDC P) P.st P.rc (pAll_st_true P)
      (pAll_rc_false P (Ne.symm hdr) (Ne.symm hcr) hrs) (Ne.symm hrs)
      (pDC_of_pAll P hds hcs) c))

/-- Unescaping the data-element separator inside one element chunk leaves
components escaped only for the component separator. -/
theorem chunk_ds_unesc (P : Delims) (hd : GoodDelims P) (el : List (List Char))
    (hel : ∀ c ∈ el, OkComp P c) :
    replace2 P.rc P.ds [P.ds] (pyJoin [P.cs] (el.map (expandP (pDC P) P.rc))) =
      pyJoin [P.cs] (el.map (expandP (pC P) P.rc)) := by
  obtain ⟨⟨hcd, hcm, hcr, hcs, hcn, hcc⟩, ⟨hdm, hdr, hds, hdn, hdc⟩,
    ⟨hmr, hms, hmn, hmc⟩, ⟨hrs, hrn, hrc2⟩, ⟨hsn, hsc⟩, hnc⟩ := delims_ne P hd.1
  rw [replace2_pyJoin P.rc P.ds P.cs [P.ds] (Ne.symm hdr) hcr
    (el.map (expandP (pDC P) P.rc))
    (by
      intro c hc
      obtain ⟨c0, hc0, rfl⟩ := List.mem_map.mp hc
      exact getLast?_expandP (pDC P) P.rc c0
        (pDC_rc_false P (Ne.symm hdr) (Ne.symm hcr)) (hel c0 hc0).1)]
  rw [List.map_map]
  exact congrArg (pyJoin [P.cs]) (map_congr_mem _ _ el (fun c _ =>
    unescape_expand (pDC P) (pC P) P.ds P.rc (pDC_ds_true P)
      (pDC_rc_false P (Ne.symm hdr) (Ne.symm hcr)) hdr
      (pC_of_pDC P hcd) c))

/-- Unescaping the component separator restores the raw component. -/
theorem comp_cs_unesc (P : Delims) (hd : GoodDelims P) (c : List Char) :
    replace2 P.rc P.cs [P.cs] (expandP (pC P) P.rc c) = c := by
  obtain ⟨⟨hcd, hcm, hcr, hcs, hcn, hcc⟩, ⟨hdm, hdr, hds, hdn, hdc⟩,
    ⟨hmr, hms, hmn, hmc⟩, ⟨hrs, hrn, hrc2⟩, ⟨hsn, hsc⟩, hnc⟩ := delims_ne P hd.1
  rw [unescape_expand (pC P) (fun _ => false) P.cs P.rc (pC_cs_true P)
    (pC_rc_false P (Ne.symm hcr)) hcr (false_of_pC P) c]
  exact expandP_false P.rc c

/-- The terminator-unescape of an emitted data line replaces each escaped
component by its two-separator expansion. -/
theorem line_st_unesc (P : Delims) (hd : GoodDelims P) (tag : Tag)
    (htag : tag ∈ SEGMENTS) (es : List (List (List Char)))
    (hes : ∀ el ∈ es, ∀ c ∈ el, OkComp P c) :
    replace2 P.rc P.st [P.st] (lineOf P (tag, Body.elems es)) =
      tag ++ [P.ds] ++
        pyJoin [P.ds] (es.map (fun el => pyJoin [P.cs] (el.map (expandP (pDC P) P.rc)))) := by
  obtain ⟨⟨hcd, hcm, hcr, hcs, hcn, hcc⟩, ⟨hdm, hdr, hds, hdn, hdc⟩,
    ⟨hmr, hms, hmn, hmc⟩, ⟨hrs, hrn, hrc2⟩, ⟨hsn, hsc⟩, hnc⟩ := delims_ne P hd.1
  have hup := hd.2
  have hstu : ¬ (P.st).isUpper = true := (hup P.st (by simp [Delims.chars])).1
  have hrcu : ¬ (P.rc).isUpper = true := (hup P.rc (by simp [Delims.chars])).1
  have htagu : ∀ c ∈ tag, c.isUpper = true := segments_upper tag htag
  have hlineOf : lineOf P (tag, Body.elems es) =
      tag ++ ([P.ds] ++ pyJoin [P.ds] (es.map (element_str P))) := by
    unfold lineOf seg_line body_elems
    simp
  rw [hlineOf]
  rw [replace2_append P.rc P.st [P.st] hrs tag _
    (getLast?_ne_of_not_mem tag P.rc (not_mem_of_not_upper tag htagu P.rc hrcu))]
  rw [replace2_notin P.rc P.st [P.st] tag (not_mem_of_not_upper tag htagu P.st hstu)]
  rw [show ([P.ds] ++ pyJoin [P.ds] (es.map (element_str P)) : List Char) =
    P.ds :: pyJoin [P.ds] (es.map (element_str P)) from rfl]
  rw [replace2_cons_ne P.rc P.st P.ds [P.st] _ hdr]
  have hestr : es.map (element_str P) =
      es.map (fun el => pyJoin [P.cs] (el.map (expandP (pAll P) P.rc))) := by
    refine map_congr_mem _ _ es (fun el hel => ?_)
    unfold element_str
    exact congrArg (pyJoin [P.cs]) (map_congr_mem _ _ el (fun c _ =>
      escape_eq_expand P c (Ne.symm hdr) (Ne.symm hcr) hrs hcd (Ne.symm hds) (Ne.symm hcs)))
  rw [hestr]
  rw [replace2_pyJoin P.rc P.st P.ds [P.st] hrs hdr
    (es.map (fun el => pyJoin [P.cs] (el.map (expandP (pAll P) P.rc))))
    (by
      intro c hc
      obtain ⟨el, hel, rfl⟩ := List.mem_map.mp hc
      exact getLast?_pyJoin P.cs P.rc hcr (el.map (expandP (pAll P) P.rc))
        (by
          intro c2 hc2
          obtain ⟨c0, hc0, rfl⟩ := List.mem_map.mp hc2
          exact getLast?_expandP (pAll P) P.rc c0
            (pAll_rc_false P (Ne.symm hdr) (Ne.symm hcr) hrs) (hes el hel c0 hc0).1))]
  have hmaps : (es.map (fun el => pyJoin [P.cs] (el.map (expandP (pAll P) P.rc)))).map
      (replace2 P.rc P.st [P.st]) =
      es.map (fun el => pyJoin [P.cs] (el.map (expandP (pDC P) P.rc))) := by
    rw [List.map_map]
    exact map_congr_mem _ _ es (fun el hel => chunk_st_unesc P hd el (hes el hel))
  rw [hmaps]
  simp

/-- Parsing an emitted, terminator-unescaped data line recovers the original
tag and element structure. -/
theorem parse_line_data (P : Delims) (hd : GoodDelims P) (i : Nat) (tag : Tag)
    (htag : tag ∈ SEGMENTS) (es : List (List (List Char))) (hes1 : es ≠ [])
    (hes2 : ∀ el ∈ es, el ≠ [] ∧ ∀ c ∈ el, OkComp P c) :
    parse_line P i (tag ++ [P.ds] ++
        pyJoin [P.ds] (es.map (fun el => pyJoin [P.cs] (el.map (expandP (pDC P) P.rc))))) =
      .ok (tag, Body.elems es) := by
  obtain ⟨⟨hcd, hcm, hcr, hcs, hcn, hcc⟩, ⟨hdm, hdr, hds, hdn, hdc⟩,
    ⟨hmr, hms, hmn, hmc⟩, ⟨hrs, hrn, hrc2⟩, ⟨hsn, hsc⟩, hnc⟩ := delims_ne P hd.1
  have hlen := segments_len3 tag htag
  have huna_not : UNA_TAG ∉ SEGMENTS := by decide
  have hune : tag ≠ UNA_TAG := fun he => huna_not (he ▸ htag)
  obtain ⟨a, b, c, rfl⟩ := List.length_eq_three.mp hlen
  unfold parse_line
  rw [show [a, b, c] ++ [P.ds] ++
      pyJoin [P.ds] (es.map (fun el => pyJoin [P.cs] (el.map (expandP (pDC P) P.rc)))) =
    [a, b, c] ++ ([P.ds] ++
      pyJoin [P.ds] (es.map (fun el => pyJoin [P.cs] (el.map (expandP (pDC P) P.rc))))) from by
    simp]
  rw [una_prefix_false [a, b, c] (by simp) hune _]
  simp only [Bool.false_eq_true, if_false, ite_false]
  rw [show ([a, b, c] ++ ([P.ds] ++
      pyJoin [P.ds] (es.map (fun el => pyJoin [P.cs] (el.map (expandP (pDC P) P.rc))))) : List Char) =
    a :: b :: c :: P.ds ::
      pyJoin [P.ds] (es.map (fun el => pyJoin [P.cs] (el.map (expandP (pDC P) P.rc)))) from by
    simp]
  rw [show (a :: b :: c :: P.ds ::
      pyJoin [P.ds] (es.map (fun el => pyJoin [P.cs] (el.map (expandP (pDC P) P.rc))))).get? 3 =
    some P.ds from rfl]
  simp only [if_true, ite_true]
  rw [show (a :: b :: c :: P.ds ::
      pyJoin [P.ds] (es.map (fun el => pyJoin [P.cs] (el.map (expandP (pDC P) P.rc))))).take 3 =
    [a, b, c] from rfl]
  rw [if_pos htag]
  rw [show (a :: b :: c :: P.ds ::
      pyJoin [P.ds] (es.map (fun el => pyJoin [P.cs] (el.map (expandP (pDC P) P.rc))))).drop 4 =
    pyJoin [P.ds] (es.map (fun el => pyJoin [P.cs] (el.map (expandP (pDC P) P.rc)))) from rfl]
  rw [splitSep_pyJoin P.ds P.rc hdr (es.map (fun el => pyJoin [P.cs]
      (el.map (expandP (pDC P) P.rc)))) none
    (by
      intro he
      exact hes1 (List.map_eq_nil.mp he))
    (by simp)
    (by
      intro ch hch
      obtain ⟨el, hel, rfl⟩ := List.mem_map.mp hch
      constructor
      · exact guardedF_pyJoin P.ds P.rc P.cs hcd
          (el.map (expandP (pDC P) P.rc)) (some P.ds)
          (by
            intro c2 hc2 prev2
            obtain ⟨c0, hc0, rfl⟩ := List.mem_map.mp hc2
            exact guardedF_expandP P.ds P.rc (pDC P) (pDC_ds_true P) hdr c0 prev2)
      · refine lastC_ne (some P.ds) _ P.rc (by
          intro he
          exact hdr (by injection he)) ?_
        exact getLast?_pyJoin P.cs P.rc hcr (el.map (expandP (pDC P) P.rc))
          (by
            intro c2 hc2
            obtain ⟨c0, hc0, rfl⟩ := List.mem_map.mp hc2
            exact getLast?_expandP (pDC P) P.rc c0
              (pDC_rc_false P (Ne.symm hdr) (Ne.symm hcr)) ((hes2 el hel).2 c0 hc0).1))]
  have hmap2 : (es.map (fun el => pyJoin [P.cs] (el.map (expandP (pDC P) P.rc)))).map
      (replace2 P.rc P.ds [P.ds]) =
      es.map (fun el => pyJoin [P.cs] (el.map (expandP (pC P) P.rc))) := by
    rw [List.map_map]
    exact map_congr_mem _ _ es (fun el hel => chunk_ds_unesc P hd el ((hes2 el hel).2))
  rw [hmap2]
  have hinner : (es.map (fun el => pyJoin [P.cs] (el.map (expandP (pC P) P.rc)))).map
      (fun el2 => (splitSep P.cs P.rc none el2).map (replace2 P.rc P.cs [P.cs])) = es := by
    rw [List.map_map]
    refine Eq.trans (map_congr_mem _ (fun el => el) es (fun el hel => ?_)) (List.map_id es)
    show (splitSep P.cs P.rc none (pyJoin [P.cs] (el.map (expandP (pC P) P.rc)))).map
      (replace2 P.rc P.cs [P.cs]) = el
    rw [splitSep_pyJoin P.cs P.rc hcr (el.map (expandP (pC P) P.rc)) none
      (by
        intro he
        exact (hes2 el hel).1 (List.map_eq_nil.mp he))
      (by simp)
      (by
        intro c2 hc2
        obtain ⟨c0, hc0, rfl⟩ := List.mem_map.mp hc2
        constructor
        · exact guardedF_expandP P.cs P.rc (pC P) (pC_cs_true P) hcr c0 (some P.cs)
        · refine lastC_ne (some P.cs) _ P.rc (by
            intro he
            exact hcr (by injection he)) ?_
          exact getLast?_expandP (pC P) P.rc c0
            (pC_rc_false P (Ne.symm hcr)) ((hes2 el hel).2 c0 hc0).1)]
    rw [List.map_map]
    exact Eq.trans
      (map_congr_mem _ (fun c0 => c0) el (fun c0 _ => comp_cs_unesc P hd c0))
      (List.map_id el)
  rw [hinner]

theorem st_not_mem_una_chunk (P : Delims) (hd : GoodDelims P) : P.st ∉ una_chunk P := by
  obtain ⟨⟨hcd, hcm, hcr, hcs, hcn, hcc⟩, ⟨hdm, hdr, hds, hdn, hdc⟩,
    ⟨hmr, hms, hmn, hmc⟩, ⟨hrs, hrn, hrc2⟩, ⟨hsn, hsc⟩, hnc⟩ := delims_ne P hd.1
  have hstu : ¬ (P.st).isUpper = true := (hd.2 P.st (by simp [Delims.chars])).1
  have hsp : P.st ≠ SPACE := (hd.2 P.st (by simp [Delims.chars])).2
  intro hm
  unfold una_chunk at hm
  rcases List.mem_append.mp hm with h | h
  · exact hstu (una_tag_upper P.st h)
  · simp only [List.mem_cons, List.not_mem_nil, or_false] at h
    rcases h with h | h | h | h | h
    · exact hcs h.symm
    · exact hds h.symm
    · exact hms h.symm
    · exact hrs h.symm
    · exact hsp h

theorem una_chunk_getLast (P : Delims) : (una_chunk P).getLast? = some SPACE := by
  unfold una_chunk
  rw [show UNA_TAG ++ [P.cs, P.ds, P.dm, P.rc, SPACE] =
    (UNA_TAG ++ [P.cs, P.ds, P.dm, P.rc]) ++ [SPACE] from by simp]
  exact List.getLast?_concat _

theorem element_str_eq (P : Delims) (hd : GoodDelims P) (el : List (List Char)) :
    element_str P el = pyJoin [P.cs] (el.map (expandP (pAll P) P.rc)) := by
  obtain ⟨⟨hcd, hcm, hcr, hcs, hcn, hcc⟩, ⟨hdm, hdr, hds, hdn, hdc⟩,
    ⟨hmr, hms, hmn, hmc⟩, ⟨hrs, hrn, hrc2⟩, ⟨hsn, hsc⟩, hnc⟩ := delims_ne P hd.1
  unfold element_str
  exact congrArg (pyJoin [P.cs]) (map_congr_mem _ _ el (fun c _ =>
    escape_eq_expand P c (Ne.symm hdr) (Ne.symm hcr) hrs hcd (Ne.symm hds) (Ne.symm hcs)))

theorem lineOf_elems (P : Delims) (tag : Tag) (es : List (List (List Char))) :
    lineOf P (tag, Body.elems es) =
      tag ++ (P.ds :: pyJoin [P.ds] (es.map (element_str P))) := by
  unfold lineOf seg_line body_elems
  simp

/-- A left-to-right scan over an emitted data line never finds an unescaped
segment terminator. -/
theorem lineOf_guardedF (P : Delims) (hd : GoodDelims P) (tag : Tag)
    (htag : tag ∈ SEGMENTS) (es : List (List (List Char))) (prev : Option Char) :
    guardedF P.st P.rc prev (lineOf P (tag, Body.elems es)) = true := by
  obtain ⟨⟨hcd, hcm, hcr, hcs, hcn, hcc⟩, ⟨hdm, hdr, hds, hdn, hdc⟩,
    ⟨hmr, hms, hmn, hmc⟩, ⟨hrs, hrn, hrc2⟩, ⟨hsn, hsc⟩, hnc⟩ := delims_ne P hd.1
  have hstu : ¬ (P.st).isUpper = true := (hd.2 P.st (by simp [Delims.chars])).1
  have htagu := segments_upper tag htag
  rw [lineOf_elems, guardedF_append]
  rw [guardedF_of_not_mem P.st P.rc tag (not_mem_of_not_upper tag htagu P.st hstu) prev]
  rw [guardedF_cons, if_neg (fun hc => hds hc.1)]
  rw [guardedF_pyJoin P.st P.rc P.ds hds (es.map (element_str P)) (some P.ds)
    (by
      intro ch hch prev2
      obtain ⟨el, hel, rfl⟩ := List.mem_map.mp hch
      rw [element_str_eq P hd el]
      exact guardedF_pyJoin P.st P.rc P.cs hcs (el.map (expandP (pAll P) P.rc)) prev2
        (by
          intro c2 hc2 prev3
          obtain ⟨c0, hc0, rfl⟩ := List.mem_map.mp hc2
          exact guardedF_expandP P.st P.rc (pAll P) (pAll_st_true P) (Ne.symm hrs) c0 prev3))]
  rfl

/-- An emitted data line never ends with the release character. -/
theorem lineOf_getLast_ne (P : Delims) (hd : GoodDelims P) (tag : Tag)
    (es : List (List (List Char)))
    (hes : ∀ el ∈ es, ∀ c ∈ el, OkComp P c) :
    (lineOf P (tag, Body.elems es)).getLast? ≠ some P.rc := by
  obtain ⟨⟨hcd, hcm, hcr, hcs, hcn, hcc⟩, ⟨hdm, hdr, hds, hdn, hdc⟩,
    ⟨hmr, hms, hmn, hmc⟩, ⟨hrs, hrn, hrc2⟩, ⟨hsn, hsc⟩, hnc⟩ := delims_ne P hd.1
  rw [lineOf_elems, List.getLast?_append]
  have hJ2 := getLast?_pyJoin P.ds P.rc hdr (es.map (element_str P))
    (by
      intro ch hch
      obtain ⟨el, hel, rfl⟩ := List.mem_map.mp hch
      rw [element_str_eq P hd el]
      exact getLast?_pyJoin P.cs P.rc hcr (el.map (expandP (pAll P) P.rc))
        (by
          intro c2 hc2
          obtain ⟨c0, hc0, rfl⟩ := List.mem_map.mp hc2
          exact getLast?_expandP (pAll P) P.rc c0
            (pAll_rc_false P (Ne.symm hdr) (Ne.symm hcr) hrs) (hes el hel c0 hc0).1))
  rw [show (P.ds :: pyJoin [P.ds] (es.map (element_str P)) : List Char) =
    [P.ds] ++ pyJoin [P.ds] (es.map (element_str P)) from rfl, List.getLast?_append]
  cases hg : (pyJoin [P.ds] (es.map (element_str P))).getLast? with
  | none =>
    simp only [hg, Option.none_or, List.getLast?_singleton, Option.or_some]
    intro he
    exact hdr (by injection he)
  | some z =>
    rw [hg] at hJ2
    simp only [hg, Option.or_some]
    exact hJ2

/-- The newline character never occurs in an emitted data line. -/
theorem nl_not_mem_lineOf (P : Delims) (hd : GoodDelims P) (tag : Tag)
    (htagu : ∀ c ∈ tag, c.isUpper = true) (es : List (List (List Char)))
    (hes : ∀ el ∈ es, ∀ c ∈ el, OkComp P c) :
    P.nl ∉ lineOf P (tag, Body.elems es) := by
  obtain ⟨⟨hcd, hcm, hcr, hcs, hcn, hcc⟩, ⟨hdm, hdr, hds, hdn, hdc⟩,
    ⟨hmr, hms, hmn, hmc⟩, ⟨hrs, hrn, hrc2⟩, ⟨hsn, hsc⟩, hnc⟩ := delims_ne P hd.1
  have hnlu : ¬ (P.nl).isUpper = true := (hd.2 P.nl (by simp [Delims.chars])).1
  intro hm
  rw [lineOf_elems] at hm
  rcases List.mem_append.mp hm with h | h
  · exact hnlu (htagu P.nl h)
  · rcases List.mem_cons.mp h with h | h
    · exact hdn h.symm
    · rcases mem_pyJoin [P.ds] _ P.nl h with h2 | ⟨ch, hch, h2⟩
      · exact hdn (List.mem_singleton.mp h2).symm
      · obtain ⟨el, hel, rfl⟩ := List.mem_map.mp hch
        unfold element_str at h2
        rcases mem_pyJoin [P.cs] _ P.nl h2 with h3 | ⟨c2, hc2, h3⟩
        · exact hcn (List.mem_singleton.mp h3).symm
        · obtain ⟨c0, hc0, rfl⟩ := List.mem_map.mp hc2
          rcases mem_escape_component P c0 P.nl h3 with h4 | h4 | h4 | h4 | h4
          · exact hrn h4.symm
          · exact hdn h4.symm
          · exact hcn h4.symm
          · exact hsn h4.symm
          · exact (hes el hel c0 hc0).2.1 h4

theorem nl_not_mem_emit_body (P : Delims) (hd : GoodDelims P) :
    ∀ T : List Seg, GoodSegs P T → P.nl ∉ emit_body P T
  | [], _ => by simp [emit_body]
  | (tag, b) :: rest, hT => by
    obtain ⟨⟨hcd, hcm, hcr, hcs, hcn, hcc⟩, ⟨hdm, hdr, hds, hdn, hdc⟩,
      ⟨hmr, hms, hmn, hmc⟩, ⟨hrs, hrn, hrc2⟩, ⟨hsn, hsc⟩, hnc⟩ := delims_ne P hd.1
    have hok := hT (tag, b) (by simp)
    have hrest : P.nl ∉ emit_body P rest :=
      nl_not_mem_emit_body P hd rest (fun x hx => hT x (List.mem_cons_of_mem _ hx))
    cases b with
    | chars cs0 => exact (hok.2.2.2 : False).elim
    | elems es =>
      have hb2 : es ≠ [] ∧ ∀ el ∈ es, el ≠ [] ∧ ∀ c ∈ el, OkComp P c := hok.2.2.2
      intro hm
      have hstep : emit_body P ((tag, Body.elems es) :: rest) =
          (lineOf P (tag, Body.elems es) ++ [P.st]) ++ emit_body P rest := by
        unfold emit_body
        simp
      rw [hstep] at hm
      rcases List.mem_append.mp hm with h | h
      · rcases List.mem_append.mp h with h | h
        · exact nl_not_mem_lineOf P hd tag (segments_upper tag hok.1) es
            (fun el hel c hc => (hb2.2 el hel).2 c hc) h
        · exact hsn (List.mem_singleton.mp h).symm
      · exact hrest h

theorem nl_not_mem_emit_text (P : Delims) (hd : GoodDelims P) (T : List Seg)
    (hT : GoodSegs P T) : P.nl ∉ emit_text P T := by
  obtain ⟨⟨hcd, hcm, hcr, hcs, hcn, hcc⟩, ⟨hdm, hdr, hds, hdn, hdc⟩,
    ⟨hmr, hms, hmn, hmc⟩, ⟨hrs, hrn, hrc2⟩, ⟨hsn, hsc⟩, hnc⟩ := delims_ne P hd.1
  have hnlu : ¬ (P.nl).isUpper = true := (hd.2 P.nl (by simp [Delims.chars])).1
  have hnsp : P.nl ≠ SPACE := (hd.2 P.nl (by simp [Delims.chars])).2
  intro hm
  unfold emit_text at hm
  rcases List.mem_append.mp hm with h | h
  · rcases List.mem_append.mp h with h | h
    · exact hnlu (una_tag_upper P.nl h)
    · unfold Delims.unaChars at h
      simp only [List.mem_cons, List.not_mem_nil, or_false] at h
      rcases h with h | h | h | h | h | h
      · exact hcn h.symm
      · exact hdn h.symm
      · exact hmn h.symm
      · exact hrn h.symm
      · exact hnsp h
      · exact hsn h.symm
  · exact nl_not_mem_emit_body P hd T hT h

theorem emit_body_pyJoin (P : Delims) :
    ∀ T : List Seg, emit_body P T = pyJoin [P.st] (T.map (lineOf P) ++ [[]])
  | [] => rfl
  | s :: rest => by
    have hstep : emit_body P (s :: rest) = (lineOf P s ++ [P.st]) ++ emit_body P rest := by
      unfold emit_body
      simp
    rw [hstep, emit_body_pyJoin P rest]
    rw [show (s :: rest).map (lineOf P) ++ [[]] =
      lineOf P s :: (rest.map (lineOf P) ++ [[]]) from by simp]
    rw [pyJoin_cons_ne_nil [P.st] (lineOf P s) (rest.map (lineOf P) ++ [[]]) (by simp)]

theorem emit_text_pyJoin (P : Delims) (T : List Seg) :
    emit_text P T = pyJoin [P.st] ((una_chunk P :: T.map (lineOf P)) ++ [[]]) := by
  rw [show (una_chunk P :: T.map (lineOf P)) ++ [[]] =
    una_chunk P :: (T.map (lineOf P) ++ [[]]) from by simp]
  rw [pyJoin_cons_ne_nil [P.st] (una_chunk P) (T.map (lineOf P) ++ [[]]) (by simp)]
  rw [← emit_body_pyJoin P T]
  unfold emit_text una_chunk Delims.unaChars
  simp

/-- Tokenising an emitted interchange returns the UNA prefix followed by the
terminator-unescaped data lines. -/
theorem tokenise_emit (P : Delims) (hd : GoodDelims P) (T : List Seg)
    (hT : GoodSegs P T) :
    tokenise P (emit_text P T) =
      una_chunk P :: (T.map (lineOf P)).map (replace2 P.rc P.st [P.st]) := by
  obtain ⟨⟨hcd, hcm, hcr, hcs, hcn, hcc⟩, ⟨hdm, hdr, hds, hdn, hdc⟩,
    ⟨hmr, hms, hmn, hmc⟩, ⟨hrs, hrn, hrc2⟩, ⟨hsn, hsc⟩, hnc⟩ := delims_ne P hd.1
  have hsp_rc : P.rc ≠ SPACE := (hd.2 P.rc (by simp [Delims.chars])).2
  unfold tokenise
  rw [subTermNl_noop P.st P.cr P.nl P.rc (emit_text P T) none
    (nl_not_mem_emit_text P hd T hT)]
  rw [emit_text_pyJoin P T]
  rw [splitSep_pyJoin P.st P.rc (Ne.symm hrs)
    ((una_chunk P :: T.map (lineOf P)) ++ [[]]) none (by simp) (by simp)
    (by
      intro ch hch
      rcases List.mem_append.mp hch with h | h
      · rcases List.mem_cons.mp h with h | h
        · rw [h]
          refine ⟨guardedF_of_not_mem P.st P.rc (una_chunk P)
            (st_not_mem_una_chunk P hd) _, ?_⟩
          refine lastC_ne _ _ _ (fun he => hrs (by injection he; simp [*])) ?_
          rw [una_chunk_getLast P]
          intro he
          exact hsp_rc (by injection he with he2; exact he2.symm)
        · obtain ⟨s, hs, rfl⟩ := List.mem_map.mp h
          obtain ⟨tag, b⟩ := s
          have hok := hT (tag, b) hs
          cases b with
          | chars cs0 => exact (hok.2.2.2 : False).elim
          | elems es =>
            have hb2 : es ≠ [] ∧ ∀ el ∈ es, el ≠ [] ∧ ∀ c ∈ el, OkComp P c := hok.2.2.2
            refine ⟨lineOf_guardedF P hd tag hok.1 es (some P.st), ?_⟩
            exact lastC_ne _ _ _ (fun he => hrs (by injection he; simp [*]))
              (lineOf_getLast_ne P hd tag es (fun el hel c hc => (hb2.2 el hel).2 c hc))
      · rw [List.mem_singleton.mp h]
        refine ⟨rfl, ?_⟩
        exact lastC_ne _ _ _ (fun he => hrs (by injection he; simp [*])) (by simp))]
  rw [List.map_append, List.map_cons]
  rw [show ([[]] : List (List Char)).map (replace2 P.rc P.st [P.st]) = [[]] from rfl]
  rw [List.dropLast_concat]
  rw [replace2_notin P.rc P.st [P.st] (una_chunk P) (st_not_mem_una_chunk P hd)]

/-- parse_line recognises the tokenised UNA prefix at line index 0. -/
theorem parse_line_una (P : Delims) :
    parse_line P 0 (una_chunk P) = .ok (UNA_TAG, Body.chars P.unaChars) := by
  unfold parse_line
  rw [show UNA_TAG.isPrefixOf (una_chunk P) = true from
    isPrefixOf_append_self UNA_TAG [P.cs, P.ds, P.dm, P.rc, SPACE]]
  simp

theorem parse_lines_emitted (P : Delims) (hd : GoodDelims P) :
    ∀ (T : List Seg) (i : Nat), GoodSegs P T →
      parse_lines P i ((T.map (lineOf P)).map (replace2 P.rc P.st [P.st])) = .ok T
  | [], _, _ => rfl
  | (tag, b) :: rest, i, hT => by
    have hok := hT (tag, b) (by simp)
    cases b with
    | chars cs0 => exact (hok.2.2.2 : False).elim
    | elems es =>
      have hb2 : es ≠ [] ∧ ∀ el ∈ es, el ≠ [] ∧ ∀ c ∈ el, OkComp P c := hok.2.2.2
      rw [List.map_cons, List.map_cons]
      simp only [parse_lines]
      rw [line_st_unesc P hd tag hok.1 es (fun el hel c hc => (hb2.2 el hel).2 c hc)]
      rw [parse_line_data P hd i tag hok.1 es hb2.1 hb2.2]
      dsimp only []
      rw [parse_lines_emitted P hd rest (i + 1)
        (fun x hx => hT x (List.mem_cons_of_mem _ hx))]

/-- Core of the canonical round trip at text level: parsing the emitted
content yields the UNA segment followed by the emitted data segments. -/
theorem parse_content_emit (P : Delims) (hd : GoodDelims P) (T : List Seg)
    (hT : GoodSegs P T) :
    parse_content (emit_text P T) P = .ok ((UNA_TAG, Body.chars P.unaChars) :: T) := by
  have hres : resolve_delims (emit_text P T) P = .ok P := rfl
  unfold parse_content
  rw [hres]
  dsimp only []
  rw [if_pos hd.1]
  rw [tokenise_emit P hd T hT]
  simp only [parse_lines]
  rw [parse_line_una P]
  dsimp only []
  rw [parse_lines_emitted P hd T 1 hT]

/-- Core of the canonical round trip at byte level: parsing bytes emitted by
make_edi with default flags returns the inserted UNA segment followed by the
data segments the emitter serialised. -/
theorem roundtrip_core (P : Delims) (hd : GoodDelims P) (S : List Seg)
    (hS : GoodSegs P (strip_una S)) (hUNB : ∀ s ∈ S, s.1 ≠ UNB_TAG)
    (B : List Nat) (hmk : make_edi S P UNOY false false true = .ok B)
    (hB : findSub B (UNB_TAG.map Char.toNat) = none) :
    parse_edi B P UNOY = .ok ((UNA_TAG, Body.chars P.unaChars) :: strip_una S) := by
  have hT : ∀ s ∈ strip_una S, s.1 ∈ SEGMENTS ∧ s.1 ≠ UNA_TAG :=
    fun s hs => ⟨(hS s hs).1, (hS s hs).2.1⟩
  have hmk2 := make_edi_ok P S hd.1 hT hUNB
  rw [hmk] at hmk2
  have hBeq : B = utf8Encode (emit_text P (strip_una S)) := by
    injection hmk2
  rw [hBeq]
  unfold parse_edi
  have hsniff : sniff_uno (utf8Encode (emit_text P (strip_una S))) UNOY = .ok UNOY := by
    unfold sniff_uno
    rw [← hBeq, hB]
  rw [hsniff]
  dsimp only []
  have hdec : decode_content (utf8Encode (emit_text P (strip_una S))) UNOY =
      .ok (emit_text P (strip_una S)) := by
    unfold decode_content
    rw [show encOf UNOY = some Enc.utf8 from rfl]
    dsimp only []
    rw [show decodeWith Enc.utf8 (utf8Encode (emit_text P (strip_una S))) =
      utf8Decode (utf8Encode (emit_text P (strip_una S))) from rfl]
    rw [utf8Decode_utf8Encode]
  rw [hdec]
  dsimp only []
  exact parse_content_emit P hd (strip_una S) hS

/-- Extracting the component texts from the component nodes of one data
element recovers the component list, for any positional naming scheme. -/
theorem comp_nodes_roundtrip :
    ∀ (el : List (List Char)) (f : Nat → List Char),
      ((el.mapIdx (fun c_i comp => XElem.node (f c_i) []
          (if comp ≠ [] then some comp else none) [])).map
        (fun c => c.text.getD [])) = el
  | [], _ => by simp
  | comp :: rest, f => by
    rw [List.mapIdx_cons, List.map_cons]
    congr 1
    · show (XElem.node (f 0) [] (if comp ≠ [] then some comp else none) []).text.getD [] =
        comp
      by_cases hc : comp = []
      · rw [hc]
        simp [XElem.text]
      · simp [XElem.text, hc]
    · exact comp_nodes_roundtrip rest (fun i => f (i + 1))

/-- Extracting element and component structure from the positional nodes of
one segment recovers the element list, for any positional naming scheme. -/
theorem seg_nodes_roundtrip :
    ∀ (es : List (List (List Char))) (f : Nat → List Char),
      ((es.mapIdx (fun d_i el => XElem.node (f d_i) [] none
          (el.mapIdx (fun c_i comp => XElem.node (f d_i ++ natStr c_i) []
            (if comp ≠ [] then some comp else none) [])))).map
        (fun d => d.children.map (fun c => c.text.getD []))) = es
  | [], _ => by simp
  | el :: rest, f => by
    rw [List.mapIdx_cons, List.map_cons]
    congr 1
    · show (XElem.node (f 0) [] none (el.mapIdx (fun c_i comp =>
        XElem.node (f 0 ++ natStr c_i) []
          (if comp ≠ [] then some comp else none) []))).children.map
            (fun c => c.text.getD []) = el
      exact comp_nodes_roundtrip el (fun c_i => f 0 ++ natStr c_i)
    · exact seg_nodes_roundtrip rest (fun i => f (i + 1))

/-- Joint characterisation of make_xml_go and parse_xml_go on segment lists
without a UNA segment: emission succeeds and parsing its result at the same
running index recovers the segments. -/
theorem xml_go_roundtrip :
    ∀ (S : List Seg) (i : Nat),
      (∀ s ∈ S, s.1 ≠ UNA_TAG ∧ ∃ es, s.2 = Body.elems es) →
      ∃ ch, make_xml_go i S = .ok ch ∧ parse_xml_go i ch = .ok S
  | [], _, _ => ⟨[], rfl, rfl⟩
  | (tag, b) :: rest, i, h => by
    obtain ⟨htag, es, hes⟩ := h (tag, b) (by simp)
    subst hes
    obtain ⟨ch, hmk, hpr⟩ := xml_go_roundtrip rest (i + 1)
      (fun s hs => h s (List.mem_cons_of_mem _ hs))
    refine ⟨XElem.node tag [] none (es.mapIdx (fun d_i el =>
      XElem.node (tag ++ natStr d_i) [] none
        (el.mapIdx (fun c_i comp => XElem.node (tag ++ natStr d_i ++ natStr c_i) []
          (if comp ≠ [] then some comp else none) [])))) :: ch, ?_, ?_⟩
    · simp only [make_xml_go]
      rw [if_neg htag, hmk]
      rfl
    · simp only [parse_xml_go, XElem.tag, XElem.children]
      rw [if_neg htag, hpr]
      show Except.ok ((tag, Body.elems ((es.mapIdx (fun d_i el =>
        XElem.node (tag ++ natStr d_i) [] none
          (el.mapIdx (fun c_i comp => XElem.node (tag ++ natStr d_i ++ natStr c_i) []
            (if comp ≠ [] then some comp else none) [])))).map
        (fun d => d.children.map (fun c => c.text.getD [])))) :: rest) =
        Except.ok ((tag, Body.elems es) :: rest)
      rw [seg_nodes_roundtrip es (fun d_i => tag ++ natStr d_i)]

/-! # Claims -/

/-- C1, counterexample: for the structural form consisting of the single
segment DTM with data element 1 (all components encode under UTF-8),
make_edi with default options succeeds, but parse_edi of the emitted bytes
returns the UNA segment that with_una=true inserted in front, so the
round trip does not return the original structure. -/
theorem c1_counterexample :
    make_edi [("DTM".toList, Body.elems [[['1']]])] defaultDelims UNOY false false true =
      .ok [85, 78, 65, 58, 43, 46, 63, 32, 39, 68, 84, 77, 43, 49, 39] ∧
    parse_edi [85, 78, 65, 58, 43, 46, 63, 32, 39, 68, 84, 77, 43, 49, 39] defaultDelims UNOY =
      .ok [(UNA_TAG, Body.chars defaultDelims.unaChars),
        ("DTM".toList, Body.elems [[['1']]])] ∧
    [(UNA_TAG, Body.chars defaultDelims.unaChars), ("DTM".toList, Body.elems [[['1']]])] ≠
      [("DTM".toList, Body.elems [[['1']]])] := by
  refine ⟨by decide, by decide, by decide⟩

/-- C1, amended: for a well-formed delimiter record — the seven option
characters pairwise distinct and none of them an upper-case letter or the
space character, so that none can collide with segment tags or the fixed
UNA prefix — the round trip holds for segment lists that begin with the UNA
segment the emitter reproduces, whose data segments lie in the canonical
domain (recognised non-service tags, non-empty elements, components that do
not end with the release character and contain no line breaks), and whose
emitted bytes contain no UNB occurrence: parsing the emitted bytes returns
the original structure. -/
theorem c1_amended (P : Delims) (T : List Seg) (B : List Nat)
    (hd : GoodDelims P) (hT : GoodSegs P T)
    (hmk : make_edi ((UNA_TAG, Body.chars P.unaChars) :: T) P UNOY false false true = .ok B)
    (hB : findSub B (UNB_TAG.map Char.toNat) = none) :
    parse_edi B P UNOY = .ok ((UNA_TAG, Body.chars P.unaChars) :: T) := by
  have hstrip : strip_una ((UNA_TAG, Body.chars P.unaChars) :: T) = T := by
    simp [strip_una]
  have h := roundtrip_core P hd ((UNA_TAG, Body.chars P.unaChars) :: T)
    (by rw [hstrip]; exact hT)
    (by
      intro s hs
      rcases List.mem_cons.mp hs with h | h
      · rw [h]
        exact (by decide : UNA_TAG ≠ UNB_TAG)
      · exact (hT s h).2.2.1)
    B hmk hB
  rw [hstrip] at h
  exact h

/-- C1, witness for the amended theorem: the UNA-headed interchange with the
single data segment DTM+1 round-trips through its emitted bytes. -/
theorem c1_amended_witness :
    parse_edi [85, 78, 65, 58, 43, 46, 63, 32, 39, 68, 84, 77, 43, 49, 39] defaultDelims
      UNOY = .ok [(UNA_TAG, Body.chars defaultDelims.unaChars),
        ("DTM".toList, Body.elems [[['1']]])] :=
  c1_amended defaultDelims [("DTM".toList, Body.elems [[['1']]])]
    [85, 78, 65, 58, 43, 46, 63, 32, 39, 68, 84, 77, 43, 49, 39]
    (by decide) (by decide) (by decide) (by decide)

/-- C2, counterexample: the component consisting of the release character
alone is emitted unchanged by the escaping pass of make_edi, so the emitted
component contains an unescaped occurrence of one of the four meta-characters
named by the claim (the release character itself). -/
theorem c2_counterexample :
    escape_component defaultDelims ['?'] = ['?'] ∧
    all_escaped [COMPONENT_SEPARATOR, DATAELEMENT_SEPARATOR, SEGMENT_TERMINATOR, RELEASE_CHAR]
      RELEASE_CHAR (escape_component defaultDelims ['?']) = false := by
  refine ⟨by decide, by decide⟩

/-- C2, amended: make_edi escapes every occurrence of the three separators —
component_separator, dataelement_separator and segment_terminator — by
prefixing release_char, but not the release character itself; thus no
emitted component contains an unescaped occurrence of one of those three
separators, and the unescape passes of parse_edi (segment terminator at line
level, then data-element separator, then component separator) remove every
escape, recovering the component exactly. -/
theorem c2_amended (P : Delims) (c : List Char)
    (hnd : [P.ds, P.cs, P.st, P.rc].Nodup) :
    all_escaped [P.ds, P.cs, P.st] P.rc (escape_component P c) = true ∧
    replace2 P.rc P.cs [P.cs] (replace2 P.rc P.ds [P.ds]
      (replace2 P.rc P.st [P.st] (escape_component P c))) = c := by
  have hdc : P.ds ≠ P.cs := by intro h; simp [h, List.nodup_cons] at hnd
  have hds : P.ds ≠ P.st := by intro h; simp [h, List.nodup_cons] at hnd
  have hdr : P.ds ≠ P.rc := by intro h; simp [h, List.nodup_cons] at hnd
  have hcs : P.cs ≠ P.st := by intro h; simp [h, List.nodup_cons] at hnd
  have hcr : P.cs ≠ P.rc := by intro h; simp [h, List.nodup_cons] at hnd
  have hsr : P.st ≠ P.rc := by intro h; simp [h, List.nodup_cons] at hnd
  have hesc := escape_eq_expand P c (Ne.symm hdr) (Ne.symm hcr) (Ne.symm hsr)
    (Ne.symm hdc) (Ne.symm hds) (Ne.symm hcs)
  have hmp : ∀ x, ([P.ds, P.cs, P.st].contains x) =
      (x == P.ds || x == P.cs || x == P.st) := by
    intro x
    show List.elem x [P.ds, P.cs, P.st] = (x == P.ds || x == P.cs || x == P.st)
    rcases Bool.eq_false_or_eq_true (x == P.ds) with h1 | h1 <;>
      rcases Bool.eq_false_or_eq_true (x == P.cs) with h2 | h2 <;>
        rcases Bool.eq_false_or_eq_true (x == P.st) with h3 | h3 <;>
          simp [List.elem, h1, h2, h3]
  have hprc : (P.rc == P.ds || P.rc == P.cs || P.rc == P.st) = false := by
    rw [beq_eq_false_iff_ne.mpr (Ne.symm hdr), beq_eq_false_iff_ne.mpr (Ne.symm hcr),
      beq_eq_false_iff_ne.mpr (Ne.symm hsr)]
    rfl
  constructor
  · rw [hesc]
    exact all_escaped_expandP [P.ds, P.cs, P.st] P.rc
      (fun x => x == P.ds || x == P.cs || x == P.st) hmp hprc c
  · rw [hesc]
    rw [unescape_expand (fun x => x == P.ds || x == P.cs || x == P.st)
      (fun x => (x == P.ds || x == P.cs || x == P.st) && !(x == P.st))
      P.st P.rc (by simp) hprc hsr (fun x => rfl) c]
    rw [unescape_expand
      (fun x => (x == P.ds || x == P.cs || x == P.st) && !(x == P.st))
      (fun x => ((x == P.ds || x == P.cs || x == P.st) && !(x == P.st)) && !(x == P.ds))
      P.ds P.rc (by simp [hds]) (by simp [hprc]) hdr (fun x => rfl) c]
    rw [unescape_expand
      (fun x => ((x == P.ds || x == P.cs || x == P.st) && !(x == P.st)) && !(x == P.ds))
      (fun x => (((x == P.ds || x == P.cs || x == P.st) && !(x == P.st)) && !(x == P.ds))
        && !(x == P.cs))
      P.cs P.rc (by simp [hcs, Ne.symm hdc]) (by simp [hprc]) hcr
      (fun x => rfl) c]
    rw [expandP_congr _ (fun _ => false) P.rc (fun x => by
      by_cases h1 : x = P.ds <;> by_cases h2 : x = P.cs <;> by_cases h3 : x = P.st <;>
        simp [h1, h2, h3]) c]
    exact expandP_false P.rc c

/-- C2, witness for the amended theorem: the default delimiters are pairwise
distinct and the component holding all four meta-characters as data escapes
and unescapes to itself. -/
theorem c2_amended_witness :
    all_escaped [defaultDelims.ds, defaultDelims.cs, defaultDelims.st] defaultDelims.rc
      (escape_component defaultDelims "A+B:C'D?E".toList) = true ∧
    replace2 defaultDelims.rc defaultDelims.cs [defaultDelims.cs]
      (replace2 defaultDelims.rc defaultDelims.ds [defaultDelims.ds]
        (replace2 defaultDelims.rc defaultDelims.st [defaultDelims.st]
          (escape_component defaultDelims "A+B:C'D?E".toList))) = "A+B:C'D?E".toList :=
  c2_amended defaultDelims "A+B:C'D?E".toList (by decide)

/-- C3, counterexample: the bytes emitted for the segment FTX with the single
component consisting of the release character are in the image of make_edi
with default options, yet the unescaped release character shields the final
segment terminator, parse_edi drops the segment, and re-emission produces a
shorter byte string. -/
theorem c3_counterexample :
    make_edi [("FTX".toList, Body.elems [[['?']]])] defaultDelims UNOY false false true =
      .ok [85, 78, 65, 58, 43, 46, 63, 32, 39, 70, 84, 88, 43, 63, 39] ∧
    parse_edi [85, 78, 65, 58, 43, 46, 63, 32, 39, 70, 84, 88, 43, 63, 39] defaultDelims UNOY =
      .ok [(UNA_TAG, Body.chars defaultDelims.unaChars)] ∧
    make_edi [(UNA_TAG, Body.chars defaultDelims.unaChars)] defaultDelims UNOY
      false false true = .ok [85, 78, 65, 58, 43, 46, 63, 32, 39] ∧
    [85, 78, 65, 58, 43, 46, 63, 32, 39] ≠
      [85, 78, 65, 58, 43, 46, 63, 32, 39, 70, 84, 88, 43, 63, 39] := by
  refine ⟨by decide, by decide, by decide, by decide⟩

/-- C3, amended: for bytes emitted with default flags from a canonical-domain
segment list (components additionally may not end with the release
character, which the emitter leaves unescaped) whose bytes contain no UNB
occurrence, re-emitting the parse reproduces the bytes exactly. -/
theorem c3_amended (P : Delims) (S : List Seg) (B : List Nat)
    (hd : GoodDelims P) (hS : GoodSegs P (strip_una S))
    (hUNB : ∀ s ∈ S, s.1 ≠ UNB_TAG)
    (hmk : make_edi S P UNOY false false true = .ok B)
    (hB : findSub B (UNB_TAG.map Char.toNat) = none) :
    ∃ segs, parse_edi B P UNOY = .ok segs ∧
      make_edi segs P UNOY false false true = .ok B := by
  refine ⟨(UNA_TAG, Body.chars P.unaChars) :: strip_una S,
    roundtrip_core P hd S hS hUNB B hmk hB, ?_⟩
  have hstrip2 : strip_una ((UNA_TAG, Body.chars P.unaChars) :: strip_una S) =
      strip_una S := by
    simp [strip_una]
  have hT : ∀ s ∈ strip_una ((UNA_TAG, Body.chars P.unaChars) :: strip_una S),
      s.1 ∈ SEGMENTS ∧ s.1 ≠ UNA_TAG := by
    rw [hstrip2]
    exact fun s hs => ⟨(hS s hs).1, (hS s hs).2.1⟩
  have h2 := make_edi_ok P ((UNA_TAG, Body.chars P.unaChars) :: strip_una S) hd.1 hT
    (by
      intro s hs
      rcases List.mem_cons.mp hs with h | h
      · rw [h]
        exact (by decide : UNA_TAG ≠ UNB_TAG)
      · exact (hS s h).2.2.1)
  rw [hstrip2] at h2
  rw [h2]
  have hmk2 := make_edi_ok P S hd.1 (fun s hs => ⟨(hS s hs).1, (hS s hs).2.1⟩) hUNB
  rw [hmk] at hmk2
  exact hmk2.symm

/-- C3, witness for the amended theorem: for the DTM+1 interchange the parse
of the emitted bytes re-emits to exactly the same bytes. -/
theorem c3_amended_witness :
    ∃ segs, parse_edi [85, 78, 65, 58, 43, 46, 63, 32, 39, 68, 84, 77, 43, 49, 39]
        defaultDelims UNOY = .ok segs ∧
      make_edi segs defaultDelims UNOY false false true =
        .ok [85, 78, 65, 58, 43, 46, 63, 32, 39, 68, 84, 77, 43, 49, 39] :=
  c3_amended defaultDelims [("DTM".toList, Body.elems [[['1']]])]
    [85, 78, 65, 58, 43, 46, 63, 32, 39, 68, 84, 77, 43, 49, 39]
    (by decide) (by decide) (by decide) (by decide) (by decide)

/-- C4, confirmed: for every valid structural form — an optional UNA segment
with a character body at index 0, every other segment a non-UNA tag with an
element body, empty components allowed — the XML mapping round-trips:
parse_xml of make_xml returns the original segments, with an empty component
mapped to a text-less element and back to the empty string. -/
theorem c4_theorem (S : List Seg) (root : List Char)
    (h0 : ∀ s ∈ S.drop 1, s.1 ≠ UNA_TAG ∧ ∃ es, s.2 = Body.elems es)
    (h1 : ∀ s ∈ S.take 1, (s.1 = UNA_TAG → ∃ cs0, s.2 = Body.chars cs0) ∧
      (s.1 ≠ UNA_TAG → ∃ es, s.2 = Body.elems es)) :
    ∃ X, make_xml S root = .ok X ∧ parse_xml X = .ok S := by
  cases S with
  | nil => exact ⟨XElem.node root [] none [], rfl, rfl⟩
  | cons s rest =>
    obtain ⟨tag, b⟩ := s
    have hrest : ∀ x ∈ rest, x.1 ≠ UNA_TAG ∧ ∃ es, x.2 = Body.elems es :=
      fun x hx => h0 x (by simpa using hx)
    by_cases htag : tag = UNA_TAG
    · obtain ⟨cs0, hcs⟩ := (h1 (tag, b) (by simp)).1 htag
      rw [htag] at hcs ⊢
      cases b with
      | elems es => exact absurd hcs (by simp)
      | chars cs0 =>
        obtain ⟨ch, hmk, hpr⟩ := xml_go_roundtrip rest 1 hrest
        refine ⟨XElem.node root [] none
          (XElem.node UNA_TAG [] (some cs0) [] :: ch), ?_, ?_⟩
        · unfold make_xml
          rw [show make_xml_go 0 ((UNA_TAG, Body.chars cs0) :: rest) =
            (make_xml_go 1 rest).map
              (fun r => XElem.node UNA_TAG [] (some cs0) [] :: r) from by
            simp [make_xml_go]]
          rw [hmk]
          rfl
        · unfold parse_xml
          rw [show (XElem.node root [] none
            (XElem.node UNA_TAG [] (some cs0) [] :: ch)).children =
            XElem.node UNA_TAG [] (some cs0) [] :: ch from rfl]
          rw [show parse_xml_go 0 (XElem.node UNA_TAG [] (some cs0) [] :: ch) =
            (parse_xml_go 1 ch).map
              (fun r => (UNA_TAG, Body.chars cs0) :: r) from by
            simp [parse_xml_go, XElem.tag, XElem.text]]
          rw [hpr]
          rfl
    · have hes := (h1 (tag, b) (by simp)).2 htag
      obtain ⟨ch, hmk, hpr⟩ := xml_go_roundtrip ((tag, b) :: rest) 0
        (by
          intro x hx
          rcases List.mem_cons.mp hx with h | h
          · rw [h]
            exact ⟨htag, hes⟩
          · exact hrest x h)
      refine ⟨XElem.node root [] none ch, ?_, ?_⟩
      · unfold make_xml
        rw [hmk]
        rfl
      · unfold parse_xml
        rw [show (XElem.node root [] none ch).children = ch from rfl]
        exact hpr

/-- C4, witness: the interchange holding a UNA segment and a DTM segment
whose element carries the component 1 and an empty component maps to XML and
back unchanged. -/
theorem c4_witness :
    ∃ X, make_xml [(UNA_TAG, Body.chars defaultDelims.unaChars),
        ("DTM".toList, Body.elems [[['1'], []]])] "EDIFACT".toList = .ok X ∧
      parse_xml X = .ok [(UNA_TAG, Body.chars defaultDelims.unaChars),
        ("DTM".toList, Body.elems [[['1'], []]])] :=
  c4_theorem [(UNA_TAG, Body.chars defaultDelims.unaChars),
      ("DTM".toList, Body.elems [[['1'], []]])] "EDIFACT".toList
    (by
      intro s hs
      rw [List.mem_singleton.mp hs]
      exact ⟨by decide, ⟨[[['1'], []]], rfl⟩⟩)
    (by
      intro s hs
      rw [List.mem_singleton.mp hs]
      exact ⟨fun _ => ⟨defaultDelims.unaChars, rfl⟩, fun hne => absurd rfl hne⟩)

/-- C5, counterexample: with both delimiter records equal to the defaults and
the structural form FTX with the single release-character component,
re-emitting the parse of the emission differs from the direct emission — the
unescaped release character makes the round trip drop the segment. -/
theorem c5_counterexample :
    make_edi [("FTX".toList, Body.elems [[['?']]])] defaultDelims UNOY false false true =
      .ok [85, 78, 65, 58, 43, 46, 63, 32, 39, 70, 84, 88, 43, 63, 39] ∧
    parse_edi [85, 78, 65, 58, 43, 46, 63, 32, 39, 70, 84, 88, 43, 63, 39] defaultDelims UNOY =
      .ok [(UNA_TAG, Body.chars defaultDelims.unaChars)] ∧
    make_edi [(UNA_TAG, Body.chars defaultDelims.unaChars)] defaultDelims UNOY
      false false true ≠
      make_edi [("FTX".toList, Body.elems [[['?']]])] defaultDelims UNOY false false true := by
  refine ⟨by decide, by decide, by decide⟩

/-- C5, amended: for two well-formed delimiter records and a segment list
canonical for the first record whose emission contains no UNB occurrence,
re-emitting the parse of the first emission under the second record equals
direct emission under the second record. -/
theorem c5_amended (P1 P2 : Delims) (S : List Seg) (B1 : List Nat)
    (hd1 : GoodDelims P1) (hd2 : GoodDelims P2)
    (hS : GoodSegs P1 (strip_una S)) (hUNB : ∀ s ∈ S, s.1 ≠ UNB_TAG)
    (hmk : make_edi S P1 UNOY false false true = .ok B1)
    (hB : findSub B1 (UNB_TAG.map Char.toNat) = none) :
    ∃ segs, parse_edi B1 P1 UNOY = .ok segs ∧
      make_edi segs P2 UNOY false false true =
        make_edi S P2 UNOY false false true := by
  refine ⟨(UNA_TAG, Body.chars P1.unaChars) :: strip_una S,
    roundtrip_core P1 hd1 S hS hUNB B1 hmk hB, ?_⟩
  have hstrip2 : strip_una ((UNA_TAG, Body.chars P1.unaChars) :: strip_una S) =
      strip_una S := by
    simp [strip_una]
  have hT : ∀ s ∈ strip_una ((UNA_TAG, Body.chars P1.unaChars) :: strip_una S),
      s.1 ∈ SEGMENTS ∧ s.1 ≠ UNA_TAG := by
    rw [hstrip2]
    exact fun s hs => ⟨(hS s hs).1, (hS s hs).2.1⟩
  have h2 := make_edi_ok P2 ((UNA_TAG, Body.chars P1.unaChars) :: strip_una S) hd2.1 hT
    (by
      intro s hs
      rcases List.mem_cons.mp hs with h | h
      · rw [h]
        exact (by decide : UNA_TAG ≠ UNB_TAG)
      · exact (hS s h).2.2.1)
  rw [hstrip2] at h2
  rw [h2]
  exact (make_edi_ok P2 S hd2.1 (fun s hs => ⟨(hS s hs).1, (hS s hs).2.1⟩) hUNB).symm

/-- C5, witness for the amended theorem: emitting DTM+1 with the default
delimiters, parsing, and re-emitting with an alternative record (component
separator semicolon, terminator tilde) matches direct emission under the
alternative record. -/
theorem c5_amended_witness :
    ∃ segs, parse_edi [85, 78, 65, 58, 43, 46, 63, 32, 39, 68, 84, 77, 43, 49, 39]
        defaultDelims UNOY = .ok segs ∧
      make_edi segs ⟨';', '-', '.', '?', '~', '\n', '\r'⟩ UNOY false false true =
        make_edi [("DTM".toList, Body.elems [[['1']]])]
          ⟨';', '-', '.', '?', '~', '\n', '\r'⟩ UNOY false false true :=
  c5_amended defaultDelims ⟨';', '-', '.', '?', '~', '\n', '\r'⟩
    [("DTM".toList, Body.elems [[['1']]])]
    [85, 78, 65, 58, 43, 46, 63, 32, 39, 68, 84, 77, 43, 49, 39]
    (by decide) (by decide) (by decide) (by decide) (by decide) (by decide)

/-- C6, counterexample: for input bytes containing UNB at position 0 followed
by the syntax identifier UNOC, the sniffer does not read the four bytes at
the next UNO occurrence: Python's truthiness test on the index treats
position 0 like an absent UNB, and the configured default UNOY is used. -/
theorem c6_counterexample :
    findSub ("UNB+UNOC:3+X'".toList.map Char.toNat) (UNB_TAG.map Char.toNat) = some 0 ∧
    sniff_uno ("UNB+UNOC:3+X'".toList.map Char.toNat) UNOY = .ok UNOY ∧
    UNOY ≠ "UNOC".toList := by
  refine ⟨by decide, by decide, by decide⟩

/-- C6, amended: the sniffed syntax identifier is the four bytes at the first
UNO occurrence after the first UNB occurrence only when that UNB occurrence
is at a nonzero position; when UNB is absent or its first occurrence is at
position 0, the configured default identifier is used. -/
theorem c6_amended (data : List Nat) (dflt : List Char) :
    (findSub data (UNB_TAG.map Char.toNat) = none → sniff_uno data dflt = .ok dflt) ∧
    (findSub data (UNB_TAG.map Char.toNat) = some 0 → sniff_uno data dflt = .ok dflt) ∧
    (∀ i j, findSub data (UNB_TAG.map Char.toNat) = some i → 0 < i →
      findSub (data.drop i) ("UNO".toList.map Char.toNat) = some j →
      ((data.drop (i + j)).take 4).all (· < 128) = true →
      sniff_uno data dflt = .ok (((data.drop (i + j)).take 4).map Char.ofNat)) := by
  refine ⟨fun h => ?_, fun h => ?_, fun i j hi hpos hj hq => ?_⟩
  · simp only [sniff_uno, h]
  · simp only [sniff_uno, h]; rfl
  · simp only [sniff_uno, hi]
    have : i ≠ 0 := by omega
    simp only [this, if_true, ne_eq, not_false_eq_true, hj, hq, if_pos, ite_true]

/-- C6, witness for the amended theorem: for the canonical interchange
prefix, UNB first occurs at byte position 9 and the four bytes at the next
UNO occurrence spell UNOY. -/
theorem c6_amended_witness :
    sniff_uno ("UNA:+.? 'UNB+UNOY:3+X'".toList.map Char.toNat) UNOY =
      .ok "UNOY".toList :=
  ((c6_amended ("UNA:+.? 'UNB+UNOY:3+X'".toList.map Char.toNat) UNOY).2.2 9 4
    (by decide) (by decide) (by decide) (by decide)).trans (by decide)

/-- C7, counterexample: for the segment DTM carrying one empty component
paired with a mandatory row that sits inside a composite group (its
element's leading dictionary row is a composite header with null
representation), report succeeds but its lines contain no missing-mandatory
error line: the source emits that line only when the leading row's
representation is non-null. -/
theorem c7_counterexample :
    reportLines [("DTM".toList, Body.elems [[[]]])]
      [("DTM".toList, ⟨"DATE".toList, "DATE DESC".toList,
        [⟨"10".toList, "C507".toList, "DTG".toList, none, "M".toList, 1⟩,
         ⟨[], "2005".toList, "QUAL".toList, some "an..3".toList, "M".toList, 0⟩]⟩)]
      [] =
      .ok ["DTM+'".toList, "-----".toList, "DATE <DTM>".toList,
        "  DTG (C507)".toList, "    QUAL <> (2005)".toList, []] ∧
    mand_err_line "2005".toList "DTM".toList ∉
      (["DTM+'".toList, "-----".toList, "DATE <DTM>".toList,
        "  DTG (C507)".toList, "    QUAL <> (2005)".toList, []] :
        List (List Char)) := by
  refine ⟨by decide, by decide⟩

/-- C7, amended: a mandatory row paired with an empty component yields the
missing-mandatory error line exactly when the data element's leading
dictionary row has a non-null representation (a standalone data element);
when the leading row is a composite header with null representation, the
error line is suppressed. -/
theorem c7_amended (tag : Tag) (ed : Ed) (r : Row) (rp : List Char)
    (hmc : r.mc = "M".toList) :
    (∃ lines, report_pairs tag ed (some rp) [r] [[]] = .ok lines ∧
      mand_err_line r.code tag ∈ lines) ∧
    (∃ lines, report_pairs tag ed none [r] [[]] = .ok lines ∧
      mand_err_line r.code tag ∉ lines) := by
  have hmsg : ∀ o : Option (List Char), report_pairs tag ed o [r] [[]] =
      .ok ([] ++ [' ' :: ' ' :: ' ' :: ' ' :: (r.name ++ " <".toList ++ [] ++
          "> (".toList ++ r.code ++ ")".toList)] ++ [] ++
        (if ([] : List Char) = [] ∧ r.mc = "M".toList ∧ o ≠ none
          then [mand_err_line r.code tag] else []) ++ []) := by
    intro o
    rfl
  constructor
  · refine ⟨_, hmsg (some rp), ?_⟩
    rw [if_pos ⟨rfl, hmc, by simp⟩]
    simp
  · refine ⟨_, hmsg none, ?_⟩
    rw [if_neg (fun hc => hc.2.2 rfl)]
    intro hm
    simp only [List.nil_append, List.append_nil, List.mem_singleton] at hm
    have h0 : (mand_err_line r.code tag).head? = some ' ' := by
      rw [hm]
      rfl
    have h1 : (mand_err_line r.code tag).head? = some '\n' := rfl
    rw [h1] at h0
    exact absurd h0 (by decide)

/-- C7, witness for the amended theorem: for the mandatory qualifier row
2005 of segment DTM, the standalone pairing contains the missing-mandatory
line and the composite pairing does not. -/
theorem c7_amended_witness :
    (∃ lines, report_pairs "DTM".toList []
        (some "an..3".toList)
        [⟨[], "2005".toList, "QUAL".toList, some "an..3".toList, "M".toList, 0⟩]
        [[]] = .ok lines ∧
      mand_err_line "2005".toList "DTM".toList ∈ lines) ∧
    (∃ lines, report_pairs "DTM".toList [] none
        [⟨[], "2005".toList, "QUAL".toList, some "an..3".toList, "M".toList, 0⟩]
        [[]] = .ok lines ∧
      mand_err_line "2005".toList "DTM".toList ∉ lines) :=
  c7_amended "DTM".toList []
    ⟨[], "2005".toList, "QUAL".toList, some "an..3".toList, "M".toList, 0⟩
    "an..3".toList (by decide)

/-- C8, counterexample: report aborts with Python's KeyError on a dictionary
mismatch: the paired row's code X999 is absent from the code dictionary ED
and the component is non-empty, so ed[code] is evaluated and raises before
any error line can be recorded. -/
theorem c8_counterexample :
    reportLines [("DTM".toList, Body.elems [[['1']]])]
      [("DTM".toList, ⟨"DATE".toList, "DATE DESC".toList,
        [⟨"10".toList, "X999".toList, "QUAL".toList, some "an..3".toList,
          "M".toList, 0⟩]⟩)]
      [] = .error Err.keyError ∧
    report [("DTM".toList, Body.elems [[['1']]])]
      [("DTM".toList, ⟨"DATE".toList, "DATE DESC".toList,
        [⟨"10".toList, "X999".toList, "QUAL".toList, some "an..3".toList,
          "M".toList, 0⟩]⟩)]
      [] = .error Err.keyError := by
  refine ⟨by decide, by decide⟩

/-- C8, amended: the no-abort guarantee holds for an unknown segment tag
(a skip line is emitted) and for an unknown entry of a present code table
(an unknown-code error line is emitted, and make_edi_xml records the
attribute value CUSTOM CODE); but a paired component code absent from the
code dictionary ED aborts both report and make_edi_xml with KeyError, as the
counterexample shows. -/
theorem c8_amended (sd : Sd) (ed : Ed) (s_i : Nat) (tag : Tag) (b : Body)
    (hsd : List.lookup tag sd = none) (hta : tag ≠ UNA_TAG)
    (r : Row) (comp : List Char) (cdRepr : Option (List Char)) (ec : EdEntry)
    (tbl : List (List Char × EdVal)) (rp : List Char) (rls : List (List Char))
    (hcomp : comp ≠ []) (hec : List.lookup r.code ed = some ec)
    (htbl : ec.table = some tbl) (hmiss : List.lookup comp tbl = none)
    (hrp : r.representation = some rp) (hrc : reprCheck rp comp = .ok rls) :
    report_segment sd ed s_i (tag, b) =
      .ok ["ERROR: skipping undefined segment: <".toList ++ tag ++
        "> at index ".toList ++ natStr s_i] ∧
    (∃ lines, report_pairs tag ed cdRepr [r] [comp] = .ok lines ∧
      unknown_code_line comp r.code ∈ lines) ∧
    (∃ attrs, edi_xml_attrs ed [r] [comp] = .ok [attrs] ∧
      ("value".toList, some "CUSTOM CODE".toList) ∈ attrs) := by
  refine ⟨?_, ?_, ?_⟩
  · unfold report_segment
    rw [hsd]
    dsimp only []
    rw [if_pos hta]
  · obtain ⟨rpos, rcode, rname, rrep, rmc, rrep2⟩ := r
    obtain ⟨ecname, ectbl⟩ := ec
    subst htbl
    subst hrp
    cases comp with
    | nil => exact absurd rfl hcomp
    | cons c0 cs0 =>
      refine ⟨[unknown_code_line (c0 :: cs0) rcode] ++
        ["    ".toList ++ rname ++ " <".toList ++ (c0 :: cs0) ++ "> (".toList ++
          rcode ++ ")".toList] ++ rls ++ [] ++ [], ?_, by simp⟩
      simp only [report_pairs]
      rw [hec]
      simp only []
      rw [hmiss]
      simp only []
      rw [hrc]
      rfl
  · obtain ⟨rpos, rcode, rname, rrep, rmc, rrep2⟩ := r
    obtain ⟨ecname, ectbl⟩ := ec
    subst htbl
    subst hrp
    cases comp with
    | nil => exact absurd rfl hcomp
    | cons c0 cs0 =>
      refine ⟨[("code".toList, some rcode), ("name".toList, some rname),
        ("mc".toList, some rmc), ("representation".toList, some rp)] ++
        [("value".toList, some "CUSTOM CODE".toList)], ?_, by simp⟩
      simp only [edi_xml_attrs]
      rw [hec]
      simp only []
      rw [hmiss]
      simp only []
      rfl

/-- C8, witness for the amended theorem: the unknown tag ZZZ is skipped with
an error line, and the component AB, absent from the present code table of
code X1, yields the unknown-code line in report and the CUSTOM CODE value
attribute in make_edi_xml. -/
theorem c8_amended_witness :
    report_segment [] [] 0 ("ZZZ".toList, Body.elems []) =
      .ok ["ERROR: skipping undefined segment: <".toList ++ "ZZZ".toList ++
        "> at index ".toList ++ natStr 0] ∧
    (∃ lines, report_pairs "ZZZ".toList
        [("X1".toList, ⟨"EDN".toList, some []⟩)] (some "an..3".toList)
        [⟨"10".toList, "X1".toList, "NM".toList, some "an..3".toList, "M".toList, 0⟩]
        [['A', 'B']] = .ok lines ∧
      unknown_code_line ['A', 'B'] "X1".toList ∈ lines) ∧
    (∃ attrs, edi_xml_attrs [("X1".toList, ⟨"EDN".toList, some []⟩)]
        [⟨"10".toList, "X1".toList, "NM".toList, some "an..3".toList, "M".toList, 0⟩]
        [['A', 'B']] = .ok [attrs] ∧
      ("value".toList, some "CUSTOM CODE".toList) ∈ attrs) :=
  c8_amended [] [("X1".toList, ⟨"EDN".toList, some []⟩)] 0 "ZZZ".toList
    (Body.elems []) (by decide) (by decide)
    ⟨"10".toList, "X1".toList, "NM".toList, some "an..3".toList, "M".toList, 0⟩
    ['A', 'B'] (some "an..3".toList) ⟨"EDN".toList, some []⟩ [] "an..3".toList []
    (by decide) (by decide) (by decide) (by decide) (by decide) (by decide)

/-- C9 (implicit behaviour, confirmed): when tokenisation yields a segment
line shorter than four characters that does not start with UNA, and the lines
before it parse successfully, parse_edi fails with the out-of-bounds index
error from reading the fourth character, not with the documented syntax
error. -/
theorem c9_theorem (data : List Nat) (P0 P : Delims) (dflt uno content : List Char)
    (pre post : List (List Char)) (line : List Char) (segs : List Seg)
    (hs : sniff_uno data dflt = .ok uno)
    (hdc : decode_content data uno = .ok content)
    (hr : resolve_delims content P0 = .ok P)
    (hn : P.chars.Nodup)
    (ht : tokenise P content = pre ++ line :: post)
    (hpre : parse_lines P 0 pre = .ok segs)
    (hlen : line.length < 4)
    (hUNA : UNA_TAG.isPrefixOf line = false) :
    parse_edi data P0 dflt = .error .indexError := by
  simp only [parse_edi, hs, hdc, parse_content, hr, if_pos hn, ht]
  rw [parse_lines_append, hpre]
  have hget : line.get? 3 = none := by
    rw [List.get?_eq_none]
    omega
  simp only [parse_lines, parse_line, hUNA, Bool.false_eq_true, if_neg, hget]
  simp

/-- C9, witness: the input consisting of two consecutive segment terminators
tokenises to two empty lines and parse_edi raises the index error. -/
theorem c9_witness : parse_edi [39, 39] defaultDelims UNOY = .error .indexError :=
  c9_theorem [39, 39] defaultDelims defaultDelims UNOY UNOY ['\'', '\''] [] [[]] [] []
    (by decide) (by decide) (by decide) (by decide) (by decide) (by decide)
    (by decide) (by decide)

/-- C10 (implicit behaviour, confirmed): make_edi never consults the body of
a UNA segment at index 0 — it is skipped by the emitter loop and ignored by
the UNB scan — so two segment lists differing only in that body emit
identical results for every delimiter choice and every flag combination. -/
theorem c10_theorem (b1 b2 : List Char) (rest : List Seg) (P : Delims)
    (dflt : List Char) (wnl wcr wuna : Bool) :
    make_edi ((UNA_TAG, Body.chars b1) :: rest) P dflt wnl wcr wuna =
    make_edi ((UNA_TAG, Body.chars b2) :: rest) P dflt wnl wcr wuna := by
  have h1 : UNA_TAG ≠ UNB_TAG := by decide
  simp only [make_edi, make_edi_body, scan_uno, h1, if_true, if_false, ite_true, ite_false,
    reduceIte]

end Edixml
